import Mathlib

/-!
Verification of the InstaVibe setup script (`setup.py`) and web front-end
(`app.py`) data layer, as a shallow embedding in Lean 4.

Conventions of the embedding:
* Spanner DDL statements are modelled structurally (`DdlStmt`), transcribed
  one-for-one from the string literals in `setup_base_schema_and_indexes`
  and `setup_graph_definition`.
* The Spanner schema state is the list of names of already-created schema
  objects; `update_ddl` applies statements in order and stops at the first
  error (Spanner DDL batches are not transactional).
* Generated UUIDs (`generate_uuid`) are modelled by an id supply
  `fresh : Nat -> String` sampled at an increasing counter; uuid4 collision
  freedom is the hypothesis `Function.Injective fresh` where a claim needs it.
* Python dicts used as lookup maps are association lists with
  newest-binding-first lookup (matching dict assignment/lookup semantics);
  Python dict literals (people_data, event_data, topic_seed) appear as input
  lists whose keys are pairwise distinct where that matters.
* `latitude`/`longitude` are IEEE floats in the source but are only ever
  compared for equality as components of the `locations_map` key, so they
  are modelled by `Int` (any type with decidable equality is faithful here).
* Timestamps are modelled as `Int` seconds; `dateutil_parser.isoparse`
  (which may throw) is an abstract parameter `iso : String -> Option Int`.
-/

namespace InstaVibe

/-! ## Schema Manager (setup.py: run_ddl_statements / setup_base_schema_and_indexes / setup_graph_definition) -/

/-- Table-level constraints appearing in the DDL of `setup.py`
(only FOREIGN KEY constraints occur). -/
inductive TableConstraint where
  | foreignKey (cname : String) (cols : List String) (refTable : String) (refCols : List String)
  deriving DecidableEq, Repr

/-- Structural transcription of one DDL statement string from `setup.py`. -/
inductive DdlStmt where
  | createTable (ifNotExists : Bool) (tname : String) (columns : List String)
      (constraints : List TableConstraint) (interleaveInParent : Option String)
  | createIndex (unique : Bool) (ifNotExists : Bool) (iname : String)
      (table : String) (columns : List String)
  | createPropertyGraph (ifNotExists : Bool) (gname : String)
  deriving DecidableEq, Repr

/-- The schema-object name a statement creates. -/
def DdlStmt.objectName : DdlStmt → String
  | .createTable _ n _ _ _ => n
  | .createIndex _ _ n _ _ => n
  | .createPropertyGraph _ n => n

/-- Whether the statement carries an IF NOT EXISTS clause. -/
def DdlStmt.ifNotExists : DdlStmt → Bool
  | .createTable b _ _ _ _ => b
  | .createIndex _ b _ _ _ => b
  | .createPropertyGraph b _ => b

/-- Error conditions surfaced by the Spanner driver to `run_ddl_statements`
(the `except` clauses of `run_ddl_statements` in `setup.py`). -/
inductive DdlError where
  | alreadyExists
  | failedPrecondition
  | invalidArgument
  | deadlineExceeded
  | unexpected
  deriving DecidableEq, Repr

/-- Outcome of waiting on a DDL operation: success or one of the errors. -/
def DdlOutcome := Option DdlError

/-- Spanner semantics of a single CREATE statement against a schema state
(the list of existing object names): creating an existing object is a no-op
under IF NOT EXISTS and an AlreadyExists error otherwise. -/
def applyStmt (st : List String) (s : DdlStmt) : List String × Option DdlError :=
  if s.objectName ∈ st then
    if s.ifNotExists then (st, none) else (st, some .alreadyExists)
  else (st ++ [s.objectName], none)

/-- Spanner semantics of a DDL batch (`database.update_ddl(ddl_list)` +
`operation.result(360)`): statements apply in order; the batch halts at the
first failing statement (DDL is not transactional), reporting its error. -/
def updateDdl (st : List String) : List DdlStmt → List String × Option DdlError
  | [] => (st, none)
  | s :: rest =>
    match applyStmt st s with
    | (st2, none) => updateDdl st2 rest
    | (st2, some e) => (st2, some e)

/-- The error handling of `run_ddl_statements` (setup.py lines 34-67):
skip (False) when the database handle is unavailable; success, or a caught
FailedPrecondition/AlreadyExists, returns True; InvalidArgument,
DeadlineExceeded and any unexpected exception return False. -/
def handleDdlOutcome : Option DdlError → Bool
  | none => true
  | some .failedPrecondition => true
  | some .alreadyExists => true
  | some .invalidArgument => false
  | some .deadlineExceeded => false
  | some .unexpected => false

/-- `run_ddl_statements` with the driver outcome abstracted: the db-handle
guard followed by the exception handling above. -/
def run_ddl_statements (dbAvailable : Bool) (outcome : Option DdlError) : Bool :=
  if dbAvailable then handleDdlOutcome outcome else false

/-- The DDL statement list of `setup_base_schema_and_indexes` (setup.py
lines 71-170), transcribed statement by statement in source order.
Note: the `TopicContent` CREATE TABLE has no IF NOT EXISTS clause, and the
`CREATE UNIQUE INDEX ... TopicByName ON Topic(name)` line is commented out
in the source, hence absent here. -/
def base_ddl_statements : List DdlStmt :=
  [ .createTable true "Person" ["person_id", "name", "age", "create_time"] [] none,
    .createTable true "Event" ["event_id", "name", "description", "event_date", "create_time"] [] none,
    .createTable true "Post"
      ["post_id", "author_id", "text", "sentiment", "post_timestamp", "create_time"] [] none,
    .createTable true "Friendship" ["person_id_a", "person_id_b", "friendship_time"] [] none,
    .createTable true "Attendance" ["person_id", "event_id", "attendance_time"] [] none,
    .createTable true "Topic" ["topic_id", "name", "description", "create_time"] [] none,
    .createTable false "TopicContent"
      ["topic_id", "content_id", "page_no", "content_json", "create_time"] [] (some "Topic"),
    .createTable true "Mention" ["post_id", "mentioned_person_id", "mention_time"] [] none,
    .createTable true "Location"
      ["location_id", "name", "description", "latitude", "longitude", "address", "create_time"]
      [] none,
    .createTable true "EventLocation" ["event_id", "location_id", "create_time"]
      [ .foreignKey "FK_Event" ["event_id"] "Event" ["event_id"],
        .foreignKey "FK_Location" ["location_id"] "Location" ["location_id"] ] none,
    .createIndex false true "PersonByName" "Person" ["name"],
    .createIndex false true "EventByDate" "Event" ["event_date"],
    .createIndex false true "PostByTimestamp" "Post" ["post_timestamp"],
    .createIndex false true "PostByAuthor" "Post" ["author_id", "post_timestamp"],
    .createIndex false true "FriendshipByPersonB" "Friendship" ["person_id_b", "person_id_a"],
    .createIndex false true "AttendanceByEvent" "Attendance" ["event_id", "person_id"],
    .createIndex false true "MentionByPerson" "Mention" ["mentioned_person_id", "post_id"],
    .createIndex false true "EventLocationByLocationId" "EventLocation" ["location_id", "event_id"],
    .createIndex false true "TopicContentByPage" "TopicContent" ["topic_id", "page_no"] ]

/-- The `TopicContent` CREATE TABLE statement (setup.py lines 122-131):
the one statement in the batch without IF NOT EXISTS. -/
def topicContentCreate : DdlStmt :=
  .createTable false "TopicContent"
    ["topic_id", "content_id", "page_no", "content_json", "create_time"] [] (some "Topic")

/-- The DDL statement list of `setup_graph_definition` (setup.py lines 174-214). -/
def graph_ddl_statements : List DdlStmt :=
  [ .createPropertyGraph true "SocialGraph" ]

/-- `setup_base_schema_and_indexes`: runs the base DDL batch through
`run_ddl_statements`, returning the new schema state and the reported result. -/
def setup_base_schema_and_indexes (dbAvailable : Bool) (st : List String) :
    List String × Bool :=
  if dbAvailable then
    let r := updateDdl st base_ddl_statements
    (r.1, run_ddl_statements true r.2)
  else (st, false)

/-- `setup_graph_definition`: runs the property-graph DDL batch. -/
def setup_graph_definition (dbAvailable : Bool) (st : List String) :
    List String × Bool :=
  if dbAvailable then
    let r := updateDdl st graph_ddl_statements
    (r.1, run_ddl_statements true r.2)
  else (st, false)

/-- Steps of the `__main__` block that can be reached (setup.py lines 688-718). -/
inductive MainStop where
  | abortNoDb          -- "Critical Error ... Aborting." exit(1)
  | abortBaseSchema    -- "Aborting script due to errors during base schema" exit(1)
  | abortGraph         -- "Aborting script due to errors during graph definition" exit(1)
  | abortInsert        -- "Script finished with errors during data insertion." exit(1)
  | success            -- "Script finished successfully!"
  deriving DecidableEq, Repr

/-- The `__main__` control flow of setup.py: each failing step halts the
script with exit(1) before the next step is attempted.  The two DDL driver
outcomes and the insert result are abstract inputs. -/
def mainScript (dbAvailable : Bool) (baseOutcome graphOutcome : Option DdlError)
    (insertOk : Bool) : MainStop :=
  if ¬dbAvailable then .abortNoDb
  else if ¬run_ddl_statements dbAvailable baseOutcome then .abortBaseSchema
  else if ¬run_ddl_statements dbAvailable graphOutcome then .abortGraph
  else if ¬insertOk then .abortInsert
  else .success

/-! ## Seed Loader (setup.py: insert_relational_data) -/

/-- Association-list lookup, modelling Python dict lookup.  Maps are built by
prepending the newest binding, so the first hit is the most recent
assignment, matching `d[k] = v` overwrite semantics. -/
def alookup {β : Type} : List (String × β) → String → Option β
  | [], _ => none
  | (k, v) :: rest, x => if k = x then some v else alookup rest x

/-- A row of the `Friendship` table as prepared by the loader
(`friendship_time` is the commit timestamp, carried implicitly). -/
structure FriendshipRow where
  person_id_a : String
  person_id_b : String
  deriving DecidableEq, Repr

/-- State of the friendship-building loop (setup.py lines 461-477):
the accumulated `friendship_rows` and the `unique_friendship_pairs` set. -/
structure FriendState where
  rows : List FriendshipRow
  seen : List (String × String)
  deriving DecidableEq, Repr

/-- One iteration of the friendship loop (setup.py lines 463-476): skip a pair
with an unresolvable name; skip a self-pair; canonicalize by sorting the two
ids; skip a pair whose canonical form was already emitted. -/
def friendshipStep (pm : String → Option String) (st : FriendState)
    (pair : String × String) : FriendState :=
  match pm pair.1, pm pair.2 with
  | some id1, some id2 =>
    if id1 = id2 then st
    else
      let ab := if id1 ≤ id2 then (id1, id2) else (id2, id1)
      if ab ∈ st.seen then st
      else { rows := st.rows ++ [⟨ab.1, ab.2⟩], seen := ab :: st.seen }
  | _, _ => st

/-- The friendship rows produced from a people map and a friendship
name-pair list (setup.py lines 459-477). -/
def friendshipRows (pm : String → Option String) (data : List (String × String)) :
    List FriendshipRow :=
  (data.foldl (friendshipStep pm) ⟨[], []⟩).rows

/-- Invariant of the friendship-building loop: all emitted rows are strictly
ordered, every emitted unordered pair is recorded in `unique_friendship_pairs`,
and no pair is emitted twice. -/
def FriendInv (st : FriendState) : Prop :=
  (∀ r ∈ st.rows, r.person_id_a < r.person_id_b) ∧
  (∀ r ∈ st.rows, (r.person_id_a, r.person_id_b) ∈ st.seen) ∧
  (st.rows.map fun r => (r.person_id_a, r.person_id_b)).Nodup

/-- A row of the `Topic` table as prepared by the loader. -/
structure TopicRow where
  topic_id : String
  tname : String
  description : String
  deriving DecidableEq, Repr

/-- A row of the `TopicContent` table as prepared by the loader
(`content_json` holds the serialized page object). -/
structure TopicContentRow where
  topic_id : String
  content_id : String
  page_no : Nat
  content_json : String
  deriving DecidableEq, Repr

/-- One topic of `topic_seed`: name, description, and its ordered content
pages (each page modelled by its serialized JSON payload). -/
structure TopicInput where
  tname : String
  description : String
  pages : List String
  deriving DecidableEq, Repr

/-- State of the topic-building loop (setup.py lines 442-458). -/
structure TopicState where
  c : Nat
  topicMap : List (String × String)
  topicRows : List TopicRow
  topicContentRows : List TopicContentRow
  deriving Repr

/-- The inner `enumerate(t_info["pages"], start=1)` loop (setup.py
lines 451-458): one `TopicContent` row per page, pages numbered from
`pageNo` upward, each consuming a fresh content id. -/
def processPages (fresh : Nat → String) (tid : String) :
    List String → Nat → TopicState → TopicState
  | [], _, st => st
  | page :: rest, pageNo, st =>
    processPages fresh tid rest (pageNo + 1)
      { st with
        c := st.c + 1,
        topicContentRows := st.topicContentRows ++ [⟨tid, fresh st.c, pageNo, page⟩] }

/-- One iteration of the topic loop (setup.py lines 442-458): generate the
topic id, register it in `topic_map`, append the `Topic` row, then number
the pages starting from 1. -/
def processTopic (fresh : Nat → String) (st : TopicState) (t : TopicInput) : TopicState :=
  let tid := fresh st.c
  let st := { st with
    c := st.c + 1,
    topicMap := (t.tname, tid) :: st.topicMap,
    topicRows := st.topicRows ++ [⟨tid, t.tname, t.description⟩] }
  processPages fresh tid t.pages 1 st

/-- The topic-building loop over the whole `topic_seed` list. -/
def insertTopicsGo (fresh : Nat → String) : List TopicInput → TopicState → TopicState
  | [], st => st
  | t :: rest, st => insertTopicsGo fresh rest (processTopic fresh st t)

/-- Topic and TopicContent construction starting from an empty state at
counter `c0` (the loader's uuid supply position when the topic loop starts). -/
def insertTopics (fresh : Nat → String) (c0 : Nat) (ts : List TopicInput) : TopicState :=
  insertTopicsGo fresh ts ⟨c0, [], [], []⟩

/-- One location dict of an event's `locations` list (setup.py event_data).
Latitude/longitude are floats in the source, used only for equality inside
the `locations_map` key; they are modelled as `Int`. -/
structure LocDetail where
  lname : String
  description : Option String
  latitude : Int
  longitude : Int
  address : Option String
  deriving DecidableEq, Repr

/-- One entry of `event_data`: name, optional ISO date string, description,
and the optional `locations` list (`"locations" in data and
isinstance(data["locations"], list)`). -/
structure EventInput where
  ename : String
  date : Option String
  description : Option String
  locations : Option (List LocDetail)
  deriving DecidableEq, Repr

/-- A row of the `Event` table as prepared by the loader
(`event_date` is the parsed, UTC-normalised timestamp). -/
structure EventRow where
  event_id : String
  ename : String
  description : Option String
  event_date : Int
  deriving DecidableEq, Repr

/-- A row of the `Location` table as prepared by the loader. -/
structure LocationRow where
  location_id : String
  lname : String
  description : Option String
  latitude : Int
  longitude : Int
  address : Option String
  deriving DecidableEq, Repr

/-- A row of the `EventLocation` table as prepared by the loader. -/
structure EventLocationRow where
  event_id : String
  location_id : String
  deriving DecidableEq, Repr

/-- The `locations_map` key: `(loc_detail["name"], loc_detail["latitude"],
loc_detail["longitude"])`. -/
def locKey (l : LocDetail) : String × Int × Int := (l.lname, l.latitude, l.longitude)

/-- The key of an already-prepared Location row. -/
def LocationRow.key (r : LocationRow) : String × Int × Int := (r.lname, r.latitude, r.longitude)

/-- Association-list lookup keyed by the location key. -/
def lockup (m : List ((String × Int × Int) × String)) (k : String × Int × Int) : Option String :=
  match m with
  | [] => none
  | (k2, v) :: rest => if k2 = k then some v else lockup rest k

/-- State of the event/location-building loop (setup.py lines 344-388). -/
structure EvState where
  c : Nat
  eventMap : List (String × String)
  locationsMap : List ((String × Int × Int) × String)
  eventsRows : List EventRow
  locationsRows : List LocationRow
  eventLocationsRows : List EventLocationRow
  deriving Repr

/-- One iteration of the inner `for loc_detail in data["locations"]` loop
(setup.py lines 365-385): deduplicate Locations by key through
`locations_map`, then link the event to the location. -/
def processLoc (fresh : Nat → String) (event_id : String) (st : EvState)
    (loc : LocDetail) : EvState :=
  match lockup st.locationsMap (locKey loc) with
  | none =>
    let location_id := fresh st.c
    { st with
      c := st.c + 1,
      locationsMap := (locKey loc, location_id) :: st.locationsMap,
      locationsRows := st.locationsRows ++
        [⟨location_id, loc.lname, loc.description, loc.latitude, loc.longitude, loc.address⟩],
      eventLocationsRows := st.eventLocationsRows ++ [⟨event_id, location_id⟩] }
  | some location_id =>
    { st with eventLocationsRows := st.eventLocationsRows ++ [⟨event_id, location_id⟩] }

/-- The inner locations loop. -/
def processLocs (fresh : Nat → String) (event_id : String) :
    List LocDetail → EvState → EvState
  | [], st => st
  | l :: rest, st => processLocs fresh event_id rest (processLoc fresh event_id st l)

/-- One iteration of the event loop (setup.py lines 344-387): the event id is
generated and registered in `event_map` first; a missing/empty date
(`if not ts_str`) skips the rest of the iteration, and an unparseable date
raises inside the `try`, also skipping the rest; only then are the Event row
and its locations appended. -/
def processEvent (iso : String → Option Int) (fresh : Nat → String)
    (st : EvState) (ev : EventInput) : EvState :=
  let event_id := fresh st.c
  let st := { st with c := st.c + 1, eventMap := (ev.ename, event_id) :: st.eventMap }
  match ev.date with
  | none => st
  | some d =>
    if d = "" then st
    else
      match iso d with
      | none => st
      | some ts =>
        let st := { st with
          eventsRows := st.eventsRows ++ [⟨event_id, ev.ename, ev.description, ts⟩] }
        match ev.locations with
        | none => st
        | some locs => processLocs fresh event_id locs st

/-- The event-building loop over the whole `event_data` list. -/
def insertEventsGo (iso : String → Option Int) (fresh : Nat → String) :
    List EventInput → EvState → EvState
  | [], st => st
  | ev :: rest, st => insertEventsGo iso fresh rest (processEvent iso fresh st ev)

/-- Event/Location/EventLocation construction starting from an empty state at
counter `c0`. -/
def insertEvents (iso : String → Option Int) (fresh : Nat → String) (c0 : Nat)
    (evs : List EventInput) : EvState :=
  insertEventsGo iso fresh evs ⟨c0, [], [], [], [], []⟩

/-- Referential-integrity invariant of the event/location loop: every
prepared EventLocation row points at an already-prepared Event row and
Location row, and every id recorded in `locations_map` belongs to a
prepared Location row. -/
def EventLocInv (st : EvState) : Prop :=
  (∀ el ∈ st.eventLocationsRows,
    el.event_id ∈ st.eventsRows.map (fun r => r.event_id) ∧
    el.location_id ∈ st.locationsRows.map (fun r => r.location_id)) ∧
  (∀ kv ∈ st.locationsMap, kv.2 ∈ st.locationsRows.map (fun r => r.location_id))

/-- Accounting of one processing segment of the event loop with respect to a
location key `k`: going from state `st` to `st2` during which `k` is
referenced `n` times, (a) exactly one Location row with key `k` is added when
`k` was unregistered and is referenced, (b) when `k` was already registered
under id `l`, exactly `n` EventLocation rows with that id are added, (c) when
`k` gets registered during the segment under id `l`, the EventLocation rows
with id `l` number exactly `n`, (d) `k` ends unregistered exactly when it
started unregistered and is not referenced, and (e) registrations are never
overwritten. -/
def CountSpec (k : String × Int × Int) (st st2 : EvState) (n : Nat) : Prop :=
  (st2.locationsRows.countP (fun r => decide (r.key = k))
    = st.locationsRows.countP (fun r => decide (r.key = k))
      + (if lockup st.locationsMap k = none then min 1 n else 0)) ∧
  (∀ l, lockup st.locationsMap k = some l →
    st2.eventLocationsRows.countP (fun el => decide (el.location_id = l))
      = st.eventLocationsRows.countP (fun el => decide (el.location_id = l)) + n) ∧
  (∀ l, lockup st.locationsMap k = none → lockup st2.locationsMap k = some l →
    st2.eventLocationsRows.countP (fun el => decide (el.location_id = l)) = n) ∧
  (lockup st2.locationsMap k = none ↔ (lockup st.locationsMap k = none ∧ n = 0)) ∧
  (∀ k2 l, lockup st.locationsMap k2 = some l → lockup st2.locationsMap k2 = some l)

/-- `if not ts_str` or `dateutil_parser.isoparse` failure: the event gets no
Event row (setup.py lines 348-352 and 386-387). -/
def invalidDate (iso : String → Option Int) (ev : EventInput) : Prop :=
  match ev.date with
  | none => True
  | some d => d = "" ∨ iso d = none

/-- A row of the `Attendance` table as prepared by the loader. -/
structure AttendanceRow where
  person_id : String
  event_id : String
  deriving DecidableEq, Repr

/-- One iteration of the attendance loop (setup.py lines 518-525): emit a row
only when both the person and the event name resolve in the lookup maps. -/
def attendanceStep (pm em : List (String × String)) (rows : List AttendanceRow)
    (rec : String × String) : List AttendanceRow :=
  match alookup pm rec.1, alookup em rec.2 with
  | some pid, some eid => rows ++ [⟨pid, eid⟩]
  | _, _ => rows

/-- The attendance rows produced from the lookup maps and the
`attendance_data` list. -/
def attendanceRows (pm em : List (String × String))
    (data : List (String × String)) : List AttendanceRow :=
  data.foldl (attendanceStep pm em) []

/-- One entry of `posts_data`: author name (possibly absent), text, sentiment
tag, optional mentioned name, and the relative time offset. -/
structure PostInput where
  person : Option String
  text : String
  sentiment : String
  mention : Option String
  days_ago : Nat
  hours_ago : Nat
  deriving DecidableEq, Repr

/-- A row of the `Post` table as prepared by the loader. -/
structure PostRow where
  post_id : String
  author_id : String
  text : String
  sentiment : String
  post_timestamp : Int
  deriving DecidableEq, Repr

/-- A row of the `Mention` table as prepared by the loader. -/
structure MentionRow where
  post_id : String
  mentioned_person_id : String
  deriving DecidableEq, Repr

/-- State of the posts/mentions loop (setup.py lines 555-601), including the
count of author-skip warnings and of mention-skip warnings. -/
structure PostState where
  c : Nat
  postsRows : List PostRow
  mentionRows : List MentionRow
  authorSkips : Nat
  mentionSkips : Nat
  deriving Repr

/-- `now - timedelta(days=days_ago, hours=hours_ago)` in seconds. -/
def postTimestamp (now : Int) (p : PostInput) : Int :=
  now - ((p.days_ago : Int) * 86400 + (p.hours_ago : Int) * 3600)

/-- One iteration of the posts loop (setup.py lines 557-601): skip the whole
post when the author name is falsy or unresolvable (one warning); otherwise
generate the post id and append the Post row; then append a Mention row only
when the mention name is present (truthy) and resolvable, warning otherwise. -/
def processPost (pm : List (String × String)) (fresh : Nat → String) (now : Int)
    (st : PostState) (p : PostInput) : PostState :=
  match p.person with
  | none => { st with authorSkips := st.authorSkips + 1 }
  | some nm =>
    if nm = "" then { st with authorSkips := st.authorSkips + 1 }
    else
      match alookup pm nm with
      | none => { st with authorSkips := st.authorSkips + 1 }
      | some author_id =>
        let post_id := fresh st.c
        let st := { st with
          c := st.c + 1,
          postsRows := st.postsRows ++
            [⟨post_id, author_id, p.text, p.sentiment, postTimestamp now p⟩] }
        match p.mention with
        | none => st
        | some m =>
          if m = "" then st
          else
            match alookup pm m with
            | some mid => { st with mentionRows := st.mentionRows ++ [⟨post_id, mid⟩] }
            | none => { st with mentionSkips := st.mentionSkips + 1 }

/-- The posts loop over the whole `posts_data` list. -/
def insertPostsGo (pm : List (String × String)) (fresh : Nat → String) (now : Int) :
    List PostInput → PostState → PostState
  | [], st => st
  | p :: rest, st => insertPostsGo pm fresh now rest (processPost pm fresh now st p)

/-- Post/Mention construction starting from an empty state at counter `c0`. -/
def insertPosts (pm : List (String × String)) (fresh : Nat → String) (now : Int)
    (c0 : Nat) (ps : List PostInput) : PostState :=
  insertPostsGo pm fresh now ps ⟨c0, [], [], 0, 0⟩

/-- The author of a post resolves (`person_name` truthy and in `people_map`). -/
def authorResolvable (pm : List (String × String)) (p : PostInput) : Prop :=
  match p.person with
  | none => False
  | some nm => nm ≠ "" ∧ alookup pm nm ≠ none

/-- An injective id supply usable in witnesses: the string of `n` repetitions
of the character `a`. -/
def stringOfNat (n : Nat) : String := String.mk (List.replicate n 'a')

/-- The location dicts of an event that actually get processed by the inner
locations loop: none when the event's date is missing, empty or unparseable
(the iteration is skipped before reaching the loop), otherwise the event's
`locations` list (or nothing when the `locations` key is absent). -/
def validLocs (iso : String → Option Int) (ev : EventInput) : List LocDetail :=
  match ev.date with
  | none => []
  | some d =>
    if d = "" then []
    else
      match iso d with
      | none => []
      | some _ => ev.locations.getD []

/-- How many times key `k` is referenced by the events of `evs` that survive
date validation: one per occurrence in a valid event's locations list. -/
def locRefCount (iso : String → Option Int) (k : String × Int × Int) :
    List EventInput → Nat
  | [] => 0
  | ev :: rest =>
    (validLocs iso ev).countP (fun l => locKey l = k) + locRefCount iso k rest

/-- Well-formedness of the location bookkeeping in `EvState`, relative to the
id supply: map keys are distinct, map ids are fresh ids drawn strictly below
the counter and pairwise distinct, `locations_map` and `locations_rows` are
in exact correspondence, and every EventLocation row's location id is a map
id. -/
def LocWF (fresh : Nat → String) (st : EvState) : Prop :=
  (st.locationsMap.map (·.1)).Nodup ∧
  (∀ kv ∈ st.locationsMap, ∃ j < st.c, kv.2 = fresh j) ∧
  (st.locationsMap.map (·.2)).Nodup ∧
  (∀ r ∈ st.locationsRows, lockup st.locationsMap r.key = some r.location_id) ∧
  (∀ kv ∈ st.locationsMap, ∃ r ∈ st.locationsRows, r.key = kv.1 ∧ r.location_id = kv.2) ∧
  ((st.locationsRows.map LocationRow.key).Nodup) ∧
  (∀ el ∈ st.eventLocationsRows, ∃ kv ∈ st.locationsMap, el.location_id = kv.2)

/-- Does a DDL statement impose uniqueness on the `name` column of `Topic`?
Only a UNIQUE index on Topic over `name` could (the `TableConstraint` type
records every table-level constraint present in the source: all are foreign
keys, none impose uniqueness). -/
def topicNameUniqueness : DdlStmt → Bool
  | .createIndex true _ _ "Topic" cols => cols.contains "name"
  | _ => false

/-! ## Read path (app.py: run_query / home) -/

/-- What a single `snapshot.execute_sql` interaction amounts to for the error
handling of `run_query` (app.py lines 102-182): a successful row list, a
caught Spanner error (NotFound / PermissionDenied / InvalidArgument), or an
unexpected exception. -/
inductive QueryOutcome where
  | ok (rows : List String)
  | spannerError
  | unexpectedError
  deriving DecidableEq, Repr

/-- Python exceptions that can escape the modelled fragment of app.py. -/
inductive PyError where
  | connectionError          -- raised by run_query when db is None
  | propagated               -- an unexpected query error re-raised by run_query
  | unboundLocalTopics       -- render_template referencing the unassigned local `topics`
  deriving DecidableEq, Repr

/-- `run_query` (app.py lines 102-182): raise ConnectionError when the db
handle is unavailable; return the rows on success; on a caught Spanner error
flash a warning and return `[]`; on an unexpected error flash and re-raise.
The second component counts flashed messages. -/
def run_query (dbOk : Bool) (q : QueryOutcome) : Except PyError (List String × Nat) :=
  if ¬dbOk then .error .connectionError
  else
    match q with
    | .ok rows => .ok (rows, 0)
    | .spannerError => .ok ([], 1)
    | .unexpectedError => .error .propagated

/-- `get_all_events_with_attendees_db` (app.py lines 216-254): the event query
first; if it yields no events return `[]` without the attendee query;
otherwise run the attendee query and merge (the merge is abstracted to
concatenation of the payloads). -/
def get_all_events_with_attendees_db (dbOk : Bool) (qe qa : QueryOutcome) :
    Except PyError (List String × Nat) := do
  let (events, f1) ← run_query dbOk qe
  if events = [] then return ([], f1)
  else
    let (attendees, f2) ← run_query dbOk qa
    return (events ++ attendees, f1 + f2)

/-- The rendered home page: the three template inputs plus the number of
flashed messages. -/
structure HomePage where
  posts : List String
  all_events_attendance : List String
  topics : List String
  flashes : Nat
  deriving DecidableEq, Repr

/-- `render_template('index.html', posts=..., all_events_attendance=...,
topics=topics)`: referencing the local variable `topics` raises
UnboundLocalError when no assignment to it has executed. -/
def renderHome (posts events : List String) (topics : Option (List String))
    (flashes : Nat) : Except PyError HomePage :=
  match topics with
  | none => .error .unboundLocalTopics
  | some t => .ok ⟨posts, events, t, flashes⟩

/-- The `home` route handler (app.py lines 257-281).  `all_posts` and
`all_events_attendance` start as `[]`; the local `topics` has no initial
assignment.  When the db handle is unavailable only a warning is flashed; in
the `try` block the three fetches run in order, and the `except` block
flashes and resets `all_posts` and `all_events_attendance` (but not
`topics`).  Finally `render_template` is called. -/
def home (dbOk : Bool) (qPosts qEvents qAttendees qTopics : QueryOutcome) :
    Except PyError HomePage :=
  let all_posts : List String := []
  let all_events_attendance : List String := []
  let topics : Option (List String) := none
  if ¬dbOk then
    renderHome all_posts all_events_attendance topics 1
  else
    match (do
        let (p, f1) ← run_query dbOk qPosts
        let (ev, f2) ← get_all_events_with_attendees_db dbOk qEvents qAttendees
        let (t, f3) ← run_query dbOk qTopics
        return (p, ev, t, f1 + f2 + f3) :
        Except PyError (List String × List String × List String × Nat)) with
    | .ok (p, ev, t, f) => renderHome p ev (some t) f
    | .error _ => renderHome [] [] topics 1

/-! ## Theorems -/

/-- C7: for every DDL batch run by the Schema Manager, an invalid-argument
error makes `run_ddl_statements` report failure and the main script abort
before the graph step; a deadline-exceeded error likewise reports failure;
an already-exists or failed-precondition condition is treated as success and
setup continues to the next step. -/
theorem c7_ddl_error_policy :
    run_ddl_statements true (some DdlError.invalidArgument) = false ∧
    run_ddl_statements true (some DdlError.deadlineExceeded) = false ∧
    run_ddl_statements true (some DdlError.alreadyExists) = true ∧
    run_ddl_statements true (some DdlError.failedPrecondition) = true ∧
    (∀ g i, mainScript true (some DdlError.invalidArgument) g i = MainStop.abortBaseSchema) ∧
    (∀ g i, mainScript true (some DdlError.deadlineExceeded) g i = MainStop.abortBaseSchema) ∧
    mainScript true (some DdlError.alreadyExists) (some DdlError.failedPrecondition) true
      = MainStop.success :=
  ⟨rfl, rfl, rfl, rfl, fun _ _ => rfl, fun _ _ => rfl, rfl⟩

/-- C2 (counterexample): not every DDL statement of the Schema Manager is
safe to re-issue as a no-op.  The `TopicContent` CREATE TABLE statement is
part of the base batch, carries no IF NOT EXISTS clause, and re-issuing it
against the schema produced by a first successful run yields an
AlreadyExists error rather than a no-op. -/
theorem c2_topic_content_not_reissuable :
    topicContentCreate ∈ base_ddl_statements ∧
    topicContentCreate.ifNotExists = false ∧
    (setup_base_schema_and_indexes true []).2 = true ∧
    (applyStmt (setup_graph_definition true (setup_base_schema_and_indexes true []).1).1
        topicContentCreate).2 = some DdlError.alreadyExists := by
  decide

/-- C2 (amended): a second run of the Schema Manager against the database
provisioned by a first successful run reports success for both operations
and leaves the schema unchanged; every statement except the `TopicContent`
CREATE TABLE carries IF NOT EXISTS (and so is a no-op on re-issue), while
the TopicContent statement raises an already-exists error that
`run_ddl_statements` converts to success. -/
theorem c2_rerun_succeeds_schema_unchanged :
    (setup_base_schema_and_indexes true []).2 = true ∧
    (setup_graph_definition true (setup_base_schema_and_indexes true []).1).2 = true ∧
    (setup_base_schema_and_indexes true
        (setup_graph_definition true (setup_base_schema_and_indexes true []).1).1).2 = true ∧
    (setup_graph_definition true
        (setup_base_schema_and_indexes true
          (setup_graph_definition true (setup_base_schema_and_indexes true []).1).1).1).2
      = true ∧
    (setup_graph_definition true
        (setup_base_schema_and_indexes true
          (setup_graph_definition true (setup_base_schema_and_indexes true []).1).1).1).1
      = (setup_graph_definition true (setup_base_schema_and_indexes true []).1).1 ∧
    (base_ddl_statements.all fun s => s = topicContentCreate || s.ifNotExists) = true ∧
    (graph_ddl_statements.all fun s => s.ifNotExists) = true := by
  decide

/-- C3 (counterexample): no statement issued by `setup_base_schema_and_indexes`
imposes a uniqueness constraint on the Topic `name` column (the
`CREATE UNIQUE INDEX ... TopicByName ON Topic(name)` line is commented out in
the source, and the only table-level constraints in the batch are the two
EventLocation foreign keys). -/
theorem c3_no_unique_statement :
    (base_ddl_statements.all fun s => !topicNameUniqueness s) = true := by
  decide

/-- C3 (amended): `setup_base_schema_and_indexes` declares the Topic table
with a `name` column but issues no uniqueness constraint on it, so Topic
names are not enforced unique by the persisted schema. -/
theorem c3_topic_name_not_unique :
    (DdlStmt.createTable true "Topic" ["topic_id", "name", "description", "create_time"] [] none)
      ∈ base_ddl_statements ∧
    base_ddl_statements.countP topicNameUniqueness = 0 ∧
    graph_ddl_statements.countP topicNameUniqueness = 0 := by
  decide

/-- C9 (code bug): the home handler does not always render the page with
empty result sets on a query failure.  When the database connection is
unavailable, and when a query raises an unexpected error that `run_query`
re-raises, the local variable `topics` is never assigned and the final
`render_template` call raises UnboundLocalError (a hard error page).  Only
the caught Spanner-error category behaves as the spec describes: the page
renders with empty result sets and flashed warnings. -/
theorem c9_home_unbound_topics :
    home false (.ok []) (.ok []) (.ok []) (.ok []) = .error .unboundLocalTopics ∧
    home true .unexpectedError (.ok []) (.ok []) (.ok []) = .error .unboundLocalTopics ∧
    home true (.ok ["p"]) (.ok ["e"]) (.ok ["a"]) .unexpectedError
      = .error .unboundLocalTopics ∧
    home true .spannerError .spannerError (.ok []) .spannerError
      = .ok ⟨[], [], [], 3⟩ :=
  ⟨rfl, rfl, rfl, rfl⟩

theorem friendshipStep_preserves (pm : String → Option String) (st : FriendState)
    (pr : String × String) (h : FriendInv st) : FriendInv (friendshipStep pm st pr) := by
  obtain ⟨hord, hsub, hnd⟩ := h
  cases hp : pm pr.1 with
  | none => simpa [friendshipStep, hp] using ⟨hord, hsub, hnd⟩
  | some id1 =>
    cases hq : pm pr.2 with
    | none => simpa [friendshipStep, hp, hq] using ⟨hord, hsub, hnd⟩
    | some id2 =>
      by_cases heq : id1 = id2
      · simpa [friendshipStep, hp, hq, heq] using ⟨hord, hsub, hnd⟩
      · have hcanon : ∀ a b : String, a < b →
            (⟨a, b⟩ : String × String) ∉ st.seen →
            FriendInv { rows := st.rows ++ [⟨a, b⟩], seen := (a, b) :: st.seen } := by
          intro a b hab hnotin
          refine ⟨?_, ?_, ?_⟩
          · intro r hr
            rcases List.mem_append.mp hr with h1 | h1
            · exact hord r h1
            · simp only [List.mem_singleton] at h1
              subst h1; exact hab
          · intro r hr
            rcases List.mem_append.mp hr with h1 | h1
            · exact List.mem_cons_of_mem _ (hsub r h1)
            · simp only [List.mem_singleton] at h1
              subst h1; exact List.mem_cons_self _ _
          · rw [List.map_append]
            rw [List.nodup_append]
            refine ⟨hnd, List.nodup_singleton _, ?_⟩
            intro x hx hx2
            simp only [List.map_cons, List.map_nil, List.mem_singleton] at hx2
            subst hx2
            obtain ⟨r, hr, hpair⟩ := List.mem_map.mp hx
            exact hnotin (hpair ▸ hsub r hr)
        by_cases hle : id1 ≤ id2
        · by_cases hmem : (⟨id1, id2⟩ : String × String) ∈ st.seen
          · simpa [friendshipStep, hp, hq, heq, hle, hmem] using ⟨hord, hsub, hnd⟩
          · have hres : friendshipStep pm st pr =
                { rows := st.rows ++ [⟨id1, id2⟩], seen := (id1, id2) :: st.seen } := by
              simp [friendshipStep, hp, hq, heq, hle, hmem]
            rw [hres]
            exact hcanon id1 id2 (lt_of_le_of_ne hle heq) hmem
        · by_cases hmem : (⟨id2, id1⟩ : String × String) ∈ st.seen
          · simpa [friendshipStep, hp, hq, heq, hle, hmem] using ⟨hord, hsub, hnd⟩
          · have hres : friendshipStep pm st pr =
                { rows := st.rows ++ [⟨id2, id1⟩], seen := (id2, id1) :: st.seen } := by
              simp [friendshipStep, hp, hq, heq, hle, hmem]
            rw [hres]
            exact hcanon id2 id1 (lt_of_not_le hle) hmem

theorem foldl_friendshipStep_preserves (pm : String → Option String)
    (data : List (String × String)) (st : FriendState) (h : FriendInv st) :
    FriendInv (data.foldl (friendshipStep pm) st) := by
  induction data generalizing st with
  | nil => exact h
  | cons pr rest ih => exact ih _ (friendshipStep_preserves pm st pr h)

theorem countP_unordered_le_one (L : List (String × String))
    (hord : ∀ q ∈ L, q.1 < q.2) (hnd : L.Nodup) (a b : String) :
    L.countP (fun q => decide (q = (a, b) ∨ q = (b, a))) ≤ 1 := by
  induction L with
  | nil => simp
  | cons q rest ih =>
    have hordq : q.1 < q.2 := hord q (List.mem_cons_self _ _)
    have hordr : ∀ x ∈ rest, x.1 < x.2 := fun x hx => hord x (List.mem_cons_of_mem _ hx)
    rw [List.countP_cons]
    by_cases hpq : q = (a, b) ∨ q = (b, a)
    · have hzero : rest.countP (fun x => decide (x = (a, b) ∨ x = (b, a))) = 0 := by
        rw [List.countP_eq_zero]
        intro x hx
        simp only [decide_eq_true_eq, not_or]
        constructor
        · intro hxab
          rcases hpq with hq1 | hq2
          · exact hnd.not_mem ((hxab.trans hq1.symm) ▸ hx)
          · have h1 : a < b := by
              have := hordr x hx
              rw [hxab] at this
              exact this
            have h2 : b < a := by
              rw [hq2] at hordq
              exact hordq
            exact absurd h1 (lt_asymm h2)
        · intro hxba
          rcases hpq with hq1 | hq2
          · have h1 : b < a := by
              have := hordr x hx
              rw [hxba] at this
              exact this
            have h2 : a < b := by
              rw [hq1] at hordq
              exact hordq
            exact absurd h1 (lt_asymm h2)
          · exact hnd.not_mem ((hxba.trans hq2.symm) ▸ hx)
      have hdq : decide (q = (a, b) ∨ q = (b, a)) = true := decide_eq_true hpq
      rw [hzero, hdq]
      simp
    · have hrec := ih hordr hnd.of_cons
      have hdq : decide (q = (a, b) ∨ q = (b, a)) = false := decide_eq_false hpq
      simpa [hdq] using hrec

/-- C1: every Friendship row produced by the Seed Loader from any people map
and any friendship name-pair list has `person_id_a` lexicographically smaller
than `person_id_b`; each unordered pair of ids yields at most one row (reverse
duplicates add nothing); and a pair whose two names resolve to the same
person id leaves the loop state unchanged (no row is produced). -/
theorem c1_friendship_rows_canonical (pm : String → Option String)
    (data : List (String × String)) :
    (∀ r ∈ friendshipRows pm data, r.person_id_a < r.person_id_b) ∧
    (∀ a b : String,
      ((friendshipRows pm data).map fun r => (r.person_id_a, r.person_id_b)).countP
        (fun q => decide (q = (a, b) ∨ q = (b, a))) ≤ 1) ∧
    (∀ st p q i, pm p = some i → pm q = some i → friendshipStep pm st (p, q) = st) := by
  have hinv : FriendInv (data.foldl (friendshipStep pm) ⟨[], []⟩) :=
    foldl_friendshipStep_preserves pm data ⟨[], []⟩
      ⟨by simp, by simp, by simp⟩
  obtain ⟨hord, hsub, hnd⟩ := hinv
  refine ⟨hord, ?_, ?_⟩
  · intro a b
    apply countP_unordered_le_one
    · intro q hq
      obtain ⟨r, hr, hpair⟩ := List.mem_map.mp hq
      subst hpair
      exact hord r hr
    · exact hnd
  · intro st p q i h1 h2
    simp [friendshipStep, h1, h2]

/-- C1 witness: the spec's example — people Alice and Bob, friendship list
with a forward pair, its reverse duplicate and a self-pair. -/
theorem c1_friendship_rows_canonical_witness :
    (∀ r ∈ friendshipRows
        (fun n => if n = "Alice" then some "pa" else if n = "Bob" then some "pb" else none)
        [("Alice", "Bob"), ("Bob", "Alice"), ("Alice", "Alice")],
      r.person_id_a < r.person_id_b) ∧
    (∀ a b : String,
      ((friendshipRows
          (fun n => if n = "Alice" then some "pa" else if n = "Bob" then some "pb" else none)
          [("Alice", "Bob"), ("Bob", "Alice"), ("Alice", "Alice")]).map
            fun r => (r.person_id_a, r.person_id_b)).countP
        (fun q => decide (q = (a, b) ∨ q = (b, a))) ≤ 1) ∧
    (∀ st p q i,
      (fun n => if n = "Alice" then some "pa" else if n = "Bob" then some "pb" else none) p
          = some i →
      (fun n => if n = "Alice" then some "pa" else if n = "Bob" then some "pb" else none) q
          = some i →
      friendshipStep
        (fun n => if n = "Alice" then some "pa" else if n = "Bob" then some "pb" else none)
        st (p, q) = st) :=
  c1_friendship_rows_canonical
    (fun n => if n = "Alice" then some "pa" else if n = "Bob" then some "pb" else none)
    [("Alice", "Bob"), ("Bob", "Alice"), ("Alice", "Alice")]

theorem processPost_resolvable (pm : List (String × String)) (fresh : Nat → String)
    (now : Int) (st : PostState) (p : PostInput) (h : authorResolvable pm p) :
    (processPost pm fresh now st p).postsRows.length = st.postsRows.length + 1 ∧
    (processPost pm fresh now st p).authorSkips = st.authorSkips := by
  unfold authorResolvable at h
  cases hp : p.person with
  | none => rw [hp] at h; exact h.elim
  | some nm =>
    rw [hp] at h
    obtain ⟨hne, hlk⟩ := h
    cases hl : alookup pm nm with
    | none => exact absurd hl hlk
    | some aid =>
      cases hm : p.mention with
      | none => simp [processPost, hp, hne, hl, hm]
      | some m =>
        by_cases hm0 : m = ""
        · simp [processPost, hp, hne, hl, hm, hm0]
        · cases hl2 : alookup pm m with
          | none => simp [processPost, hp, hne, hl, hm, hm0, hl2]
          | some mid => simp [processPost, hp, hne, hl, hm, hm0, hl2]

theorem processPost_unresolvable (pm : List (String × String)) (fresh : Nat → String)
    (now : Int) (st : PostState) (p : PostInput) (h : ¬authorResolvable pm p) :
    (processPost pm fresh now st p).postsRows = st.postsRows ∧
    (processPost pm fresh now st p).authorSkips = st.authorSkips + 1 := by
  unfold authorResolvable at h
  cases hp : p.person with
  | none => simp [processPost, hp]
  | some nm =>
    rw [hp] at h
    by_cases h0 : nm = ""
    · simp [processPost, hp, h0]
    · cases hl : alookup pm nm with
      | none => simp [processPost, hp, h0, hl]
      | some aid => exact absurd ⟨h0, by simp [hl]⟩ h

theorem insertPostsGo_resolvable (pm : List (String × String)) (fresh : Nat → String)
    (now : Int) (l : List PostInput) (st : PostState)
    (h : ∀ p ∈ l, authorResolvable pm p) :
    (insertPostsGo pm fresh now l st).postsRows.length = st.postsRows.length + l.length ∧
    (insertPostsGo pm fresh now l st).authorSkips = st.authorSkips := by
  induction l generalizing st with
  | nil => simp [insertPostsGo]
  | cons p rest ih =>
    have hp := processPost_resolvable pm fresh now st p (h p (List.mem_cons_self _ _))
    have hr := ih (processPost pm fresh now st p)
      (fun x hx => h x (List.mem_cons_of_mem _ hx))
    constructor
    · show (insertPostsGo pm fresh now rest (processPost pm fresh now st p)).postsRows.length = _
      rw [hr.1, hp.1]
      simp only [List.length_cons]
      omega
    · show (insertPostsGo pm fresh now rest (processPost pm fresh now st p)).authorSkips = _
      rw [hr.2, hp.2]

theorem insertPostsGo_append (pm : List (String × String)) (fresh : Nat → String)
    (now : Int) (l1 l2 : List PostInput) (st : PostState) :
    insertPostsGo pm fresh now (l1 ++ l2) st
      = insertPostsGo pm fresh now l2 (insertPostsGo pm fresh now l1 st) := by
  induction l1 generalizing st with
  | nil => rfl
  | cons p rest ih => simpa [insertPostsGo] using ih (processPost pm fresh now st p)

/-- C6: a post descriptor whose author name does not resolve in the people
map is skipped — out of N descriptors with exactly one unresolvable author,
N-1 Post rows are produced and exactly one author-skip warning is logged;
and a descriptor whose author resolves but whose mention name does not
resolve still appends exactly its Post row while leaving the Mention rows
unchanged. -/
theorem c6_post_skip_policy (pm : List (String × String)) (fresh : Nat → String)
    (now : Int) (c0 : Nat) (l1 l2 : List PostInput) (b : PostInput)
    (h1 : ∀ p ∈ l1, authorResolvable pm p) (h2 : ∀ p ∈ l2, authorResolvable pm p)
    (hb : ¬authorResolvable pm b) :
    ((insertPosts pm fresh now c0 (l1 ++ b :: l2)).postsRows.length
        = l1.length + l2.length ∧
     (insertPosts pm fresh now c0 (l1 ++ b :: l2)).authorSkips = 1) ∧
    (∀ (st : PostState) (p : PostInput) (nm aid m : String),
      p.person = some nm → nm ≠ "" → alookup pm nm = some aid →
      p.mention = some m → m ≠ "" → alookup pm m = none →
      (processPost pm fresh now st p).postsRows
          = st.postsRows ++ [⟨fresh st.c, aid, p.text, p.sentiment, postTimestamp now p⟩] ∧
      (processPost pm fresh now st p).mentionRows = st.mentionRows) := by
  constructor
  · have hsplit : insertPosts pm fresh now c0 (l1 ++ b :: l2)
        = insertPostsGo pm fresh now l2
            (processPost pm fresh now (insertPostsGo pm fresh now l1 ⟨c0, [], [], 0, 0⟩) b) := by
      unfold insertPosts
      rw [insertPostsGo_append]
      rfl
    have hA := insertPostsGo_resolvable pm fresh now l1 ⟨c0, [], [], 0, 0⟩ h1
    have hB := processPost_unresolvable pm fresh now
      (insertPostsGo pm fresh now l1 ⟨c0, [], [], 0, 0⟩) b hb
    have hC := insertPostsGo_resolvable pm fresh now l2
      (processPost pm fresh now (insertPostsGo pm fresh now l1 ⟨c0, [], [], 0, 0⟩) b) h2
    constructor
    · rw [hsplit, hC.1, hB.1, hA.1]
      simp
    · rw [hsplit, hC.2, hB.2, hA.2]
  · intro st p nm aid m hp hne hl hm hm0 hl2
    constructor
    · simp [processPost, hp, hne, hl, hm, hm0, hl2]
    · simp [processPost, hp, hne, hl, hm, hm0, hl2]

/-- C6 witness: people map with Alice only; one resolvable post, one post by
the unknown author Zed, and the mention part applied to a post by Alice
mentioning the unknown name Grace. -/
theorem c6_post_skip_policy_witness :
    ((insertPosts [("Alice", "pa")] stringOfNat 0 0
        [⟨some "Alice", "t1", "positive", none, 1, 2⟩,
         ⟨some "Zed", "t2", "neutral", none, 0, 0⟩]).postsRows.length
        = [(⟨some "Alice", "t1", "positive", none, 1, 2⟩ : PostInput)].length
            + ([] : List PostInput).length ∧
     (insertPosts [("Alice", "pa")] stringOfNat 0 0
        [⟨some "Alice", "t1", "positive", none, 1, 2⟩,
         ⟨some "Zed", "t2", "neutral", none, 0, 0⟩]).authorSkips = 1) ∧
    (∀ (st : PostState) (p : PostInput) (nm aid m : String),
      p.person = some nm → nm ≠ "" → alookup [("Alice", "pa")] nm = some aid →
      p.mention = some m → m ≠ "" → alookup [("Alice", "pa")] m = none →
      (processPost [("Alice", "pa")] stringOfNat 0 st p).postsRows
          = st.postsRows ++ [⟨stringOfNat st.c, aid, p.text, p.sentiment, postTimestamp 0 p⟩] ∧
      (processPost [("Alice", "pa")] stringOfNat 0 st p).mentionRows = st.mentionRows) :=
  c6_post_skip_policy [("Alice", "pa")] stringOfNat 0 0
    [⟨some "Alice", "t1", "positive", none, 1, 2⟩] []
    ⟨some "Zed", "t2", "neutral", none, 0, 0⟩
    (by
      intro p hp
      rcases List.mem_singleton.mp hp with rfl
      exact ⟨by decide, by simp [alookup]⟩)
    (by intro p hp; exact absurd hp (List.not_mem_nil p))
    (fun h => h.2 rfl)

theorem stringOfNat_injective : Function.Injective stringOfNat := by
  intro a b h
  have := congrArg (fun s => s.data.length) h
  simpa [stringOfNat] using this

theorem processPages_spec (fresh : Nat → String) (tid : String) (ps : List String) :
    ∀ (n : Nat) (st : TopicState),
    (processPages fresh tid ps n st).c = st.c + ps.length ∧
    (processPages fresh tid ps n st).topicRows = st.topicRows ∧
    (processPages fresh tid ps n st).topicMap = st.topicMap ∧
    ∃ rows, (processPages fresh tid ps n st).topicContentRows = st.topicContentRows ++ rows ∧
      rows.map (fun r => r.page_no) = List.range' n ps.length ∧
      (∀ r ∈ rows, r.topic_id = tid) := by
  induction ps with
  | nil =>
    intro n st
    exact ⟨rfl, rfl, rfl, [], by simp [processPages], by simp [List.range'], by simp⟩
  | cons page rest ih =>
    intro n st
    obtain ⟨hc, htr, htm, rows, hcr, hmap, hall⟩ :=
      ih (n + 1) ⟨st.c + 1, st.topicMap, st.topicRows,
        st.topicContentRows ++ [⟨tid, fresh st.c, n, page⟩]⟩
    refine ⟨?_, htr, htm, ⟨tid, fresh st.c, n, page⟩ :: rows, ?_, ?_, ?_⟩
    · show (processPages fresh tid rest (n + 1) _).c = _
      rw [hc]
      simp only [List.length_cons]
      omega
    · show (processPages fresh tid rest (n + 1) _).topicContentRows = _
      rw [hcr]
      simp
    · have hr : List.range' n (rest.length + 1) = n :: List.range' (n + 1) rest.length := rfl
      simp only [List.length_cons, hr, List.map_cons, hmap]
    · intro r hr
      rcases List.mem_cons.mp hr with h1 | h1
      · rw [h1]
      · exact hall r h1

theorem processTopic_spec (fresh : Nat → String) (st : TopicState) (t : TopicInput) :
    (processTopic fresh st t).c = st.c + 1 + t.pages.length ∧
    (processTopic fresh st t).topicRows
        = st.topicRows ++ [⟨fresh st.c, t.tname, t.description⟩] ∧
    ∃ rows, (processTopic fresh st t).topicContentRows = st.topicContentRows ++ rows ∧
      rows.map (fun r => r.page_no) = List.range' 1 t.pages.length ∧
      (∀ r ∈ rows, r.topic_id = fresh st.c) := by
  obtain ⟨hc, htr, htm, rows, hcr, hmap, hall⟩ :=
    processPages_spec fresh (fresh st.c) t.pages 1
      ⟨st.c + 1, (t.tname, fresh st.c) :: st.topicMap,
        st.topicRows ++ [⟨fresh st.c, t.tname, t.description⟩], st.topicContentRows⟩
  exact ⟨by rw [show processTopic fresh st t = processPages fresh (fresh st.c) t.pages 1 _ from rfl, hc],
    by rw [show processTopic fresh st t = processPages fresh (fresh st.c) t.pages 1 _ from rfl, htr],
    rows,
    by rw [show processTopic fresh st t = processPages fresh (fresh st.c) t.pages 1 _ from rfl, hcr],
    hmap, hall⟩

theorem insertTopicsGo_c_mono (fresh : Nat → String) :
    ∀ (l : List TopicInput) (st : TopicState), st.c ≤ (insertTopicsGo fresh l st).c := by
  intro l
  induction l with
  | nil => intro st; exact le_refl _
  | cons t rest ih =>
    intro st
    have h1 := (processTopic_spec fresh st t).1
    have h2 := ih (processTopic fresh st t)
    show st.c ≤ (insertTopicsGo fresh rest (processTopic fresh st t)).c
    omega

theorem insertTopicsGo_rows (fresh : Nat → String) :
    ∀ (l : List TopicInput) (st : TopicState),
    ∃ suff, (insertTopicsGo fresh l st).topicRows = st.topicRows ++ suff ∧
      suff.length = l.length := by
  intro l
  induction l with
  | nil => intro st; exact ⟨[], by simp [insertTopicsGo], rfl⟩
  | cons t rest ih =>
    intro st
    obtain ⟨suff, hs, hlen⟩ := ih (processTopic fresh st t)
    have htr := (processTopic_spec fresh st t).2.1
    refine ⟨⟨fresh st.c, t.tname, t.description⟩ :: suff, ?_, by simp [hlen]⟩
    show (insertTopicsGo fresh rest (processTopic fresh st t)).topicRows = _
    rw [hs, htr]
    simp

theorem insertTopicsGo_content (fresh : Nat → String) :
    ∀ (l : List TopicInput) (st : TopicState),
    ∃ suff, (insertTopicsGo fresh l st).topicContentRows = st.topicContentRows ++ suff ∧
      ∀ r ∈ suff, ∃ j, st.c ≤ j ∧ j < (insertTopicsGo fresh l st).c ∧ r.topic_id = fresh j := by
  intro l
  induction l with
  | nil => intro st; exact ⟨[], by simp [insertTopicsGo], by simp⟩
  | cons t rest ih =>
    intro st
    have hstep : insertTopicsGo fresh (t :: rest) st
        = insertTopicsGo fresh rest (processTopic fresh st t) := rfl
    rw [hstep]
    obtain ⟨suff, hs, hids⟩ := ih (processTopic fresh st t)
    obtain ⟨hc, htr, rows, hcr, hmap, hall⟩ := processTopic_spec fresh st t
    have hmono := insertTopicsGo_c_mono fresh rest (processTopic fresh st t)
    refine ⟨rows ++ suff, ?_, ?_⟩
    · rw [hs, hcr]
      simp
    · intro r hr
      rcases List.mem_append.mp hr with h1 | h1
      · exact ⟨st.c, le_refl _, by omega, hall r h1⟩
      · obtain ⟨j, hj1, hj2, hj3⟩ := hids r h1
        exact ⟨j, by omega, hj2, hj3⟩

theorem insertTopicsGo_append (fresh : Nat → String) (l1 l2 : List TopicInput)
    (st : TopicState) :
    insertTopicsGo fresh (l1 ++ l2) st
      = insertTopicsGo fresh l2 (insertTopicsGo fresh l1 st) := by
  induction l1 generalizing st with
  | nil => rfl
  | cons t rest ih => simpa [insertTopicsGo] using ih (processTopic fresh st t)

/-- C4: for every topic in the seed input with N content pages, the Seed
Loader produces exactly N TopicContent rows carrying that topic's id, whose
`page_no` values are exactly 1..N with no gaps or duplicates, numbered in
source list order. -/
theorem c4_topic_page_numbering (fresh : Nat → String) (c0 : Nat)
    (l1 l2 : List TopicInput) (t : TopicInput) (hinj : Function.Injective fresh) :
    ∃ tid,
      (insertTopics fresh c0 (l1 ++ t :: l2)).topicRows.get? l1.length
          = some ⟨tid, t.tname, t.description⟩ ∧
      ((insertTopics fresh c0 (l1 ++ t :: l2)).topicContentRows.filter
          (fun r => decide (r.topic_id = tid))).map (fun r => r.page_no)
        = List.range' 1 t.pages.length := by
  set st1 := insertTopicsGo fresh l1 (⟨c0, [], [], []⟩ : TopicState) with hst1
  have hsplit : insertTopics fresh c0 (l1 ++ t :: l2)
      = insertTopicsGo fresh l2 (processTopic fresh st1 t) := by
    rw [hst1]
    unfold insertTopics
    rw [insertTopicsGo_append]
    rfl
  obtain ⟨suff1, hs1, hids1⟩ := insertTopicsGo_content fresh l1 ⟨c0, [], [], []⟩
  obtain ⟨rsuff1, hr1, hrlen1⟩ := insertTopicsGo_rows fresh l1 ⟨c0, [], [], []⟩
  rw [← hst1] at hs1 hids1 hr1
  have hinitC : ((⟨c0, [], [], []⟩ : TopicState)).topicContentRows = [] := rfl
  have hinitR : ((⟨c0, [], [], []⟩ : TopicState)).topicRows = [] := rfl
  have hinitc : ((⟨c0, [], [], []⟩ : TopicState)).c = c0 := rfl
  rw [hinitC, List.nil_append] at hs1
  rw [hinitR, List.nil_append] at hr1
  obtain ⟨hc2, htr2, rowsT, hcr2, hmapT, hallT⟩ := processTopic_spec fresh st1 t
  obtain ⟨suff2, hs2, hids2⟩ := insertTopicsGo_content fresh l2 (processTopic fresh st1 t)
  obtain ⟨rsuff2, hr2, hrlen2⟩ := insertTopicsGo_rows fresh l2 (processTopic fresh st1 t)
  refine ⟨fresh st1.c, ?_, ?_⟩
  · rw [hsplit, hr2, htr2, hr1]
    rw [List.append_assoc]
    rw [List.get?_append_right hrlen1.le]
    simp [hrlen1]
  · rw [hsplit, hs2, hcr2, hs1]
    have hf1 : (suff1.filter (fun r => decide (r.topic_id = fresh st1.c))) = [] := by
      rw [List.filter_eq_nil]
      intro r hr
      obtain ⟨j, hj1, hj2, hj3⟩ := hids1 r hr
      simp only [decide_eq_true_eq]
      intro hcon
      rw [hj3] at hcon
      have := hinj hcon
      omega
    have hfT : (rowsT.filter (fun r => decide (r.topic_id = fresh st1.c))) = rowsT := by
      rw [List.filter_eq_self]
      intro r hr
      simp only [decide_eq_true_eq]
      exact hallT r hr
    have hf2 : (suff2.filter (fun r => decide (r.topic_id = fresh st1.c))) = [] := by
      rw [List.filter_eq_nil]
      intro r hr
      obtain ⟨j, hj1, hj2, hj3⟩ := hids2 r hr
      rw [hc2] at hj1
      simp only [decide_eq_true_eq]
      intro hcon
      rw [hj3] at hcon
      have := hinj hcon
      omega
    rw [List.filter_append, List.filter_append, hf1, hfT, hf2]
    simp [hmapT]

/-- C4 witness: two topics, the first with three pages, the second with one,
using the injective id supply. -/
theorem c4_topic_page_numbering_witness :
    ∃ tid,
      (insertTopics stringOfNat 0
          ([] ++ (⟨"AI Ethics", "d1", ["p1", "p2", "p3"]⟩ : TopicInput) ::
            [⟨"DAO Governance", "d2", ["q1"]⟩])).topicRows.get? ([] : List TopicInput).length
          = some ⟨tid, "AI Ethics", "d1"⟩ ∧
      ((insertTopics stringOfNat 0
          ([] ++ (⟨"AI Ethics", "d1", ["p1", "p2", "p3"]⟩ : TopicInput) ::
            [⟨"DAO Governance", "d2", ["q1"]⟩])).topicContentRows.filter
          (fun r => decide (r.topic_id = tid))).map (fun r => r.page_no)
        = List.range' 1 (["p1", "p2", "p3"] : List String).length :=
  c4_topic_page_numbering stringOfNat 0 [] [⟨"DAO Governance", "d2", ["q1"]⟩]
    ⟨"AI Ethics", "d1", ["p1", "p2", "p3"]⟩ stringOfNat_injective

theorem lockup_mem {m : List ((String × Int × Int) × String)} {k : String × Int × Int}
    {v : String} (h : lockup m k = some v) : (k, v) ∈ m := by
  induction m with
  | nil => simp [lockup] at h
  | cons kv rest ih =>
    obtain ⟨k2, v2⟩ := kv
    by_cases hk : k2 = k
    · simp only [lockup, if_pos hk] at h
      have hv : v2 = v := Option.some.inj h
      subst hk
      subst hv
      exact List.mem_cons_self _ _
    · simp only [lockup, if_neg hk] at h
      exact List.mem_cons_of_mem _ (ih h)

theorem processLoc_eventsRows (fresh : Nat → String) (eid : String) (st : EvState)
    (loc : LocDetail) : (processLoc fresh eid st loc).eventsRows = st.eventsRows := by
  unfold processLoc
  cases lockup st.locationsMap (locKey loc) <;> rfl

theorem processLoc_eventMap (fresh : Nat → String) (eid : String) (st : EvState)
    (loc : LocDetail) : (processLoc fresh eid st loc).eventMap = st.eventMap := by
  unfold processLoc
  cases lockup st.locationsMap (locKey loc) <;> rfl

theorem processLoc_c_mono (fresh : Nat → String) (eid : String) (st : EvState)
    (loc : LocDetail) : st.c ≤ (processLoc fresh eid st loc).c := by
  unfold processLoc
  cases lockup st.locationsMap (locKey loc) with
  | none => exact Nat.le_succ _
  | some lid => exact le_refl _

theorem processLoc_inv (fresh : Nat → String) (eid : String) (st : EvState) (loc : LocDetail)
    (h : EventLocInv st) (he : eid ∈ st.eventsRows.map (fun r => r.event_id)) :
    EventLocInv (processLoc fresh eid st loc) := by
  obtain ⟨hel, hmap⟩ := h
  unfold processLoc
  cases hl : lockup st.locationsMap (locKey loc) with
  | some lid =>
    refine ⟨?_, hmap⟩
    intro el hel2
    rcases List.mem_append.mp hel2 with h1 | h1
    · exact hel el h1
    · simp only [List.mem_singleton] at h1
      subst h1
      exact ⟨he, hmap (locKey loc, lid) (lockup_mem hl)⟩
  | none =>
    constructor
    · intro el hel2
      rcases List.mem_append.mp hel2 with h1 | h1
      · obtain ⟨h1a, h1b⟩ := hel el h1
        refine ⟨h1a, ?_⟩
        simp only [List.map_append, List.mem_append]
        exact Or.inl h1b
      · simp only [List.mem_singleton] at h1
        subst h1
        refine ⟨he, ?_⟩
        simp
    · intro kv hkv
      rcases List.mem_cons.mp hkv with h1 | h1
      · subst h1
        simp
      · have := hmap kv h1
        simp only [List.map_append, List.mem_append]
        exact Or.inl this

theorem processLocs_eventsRows (fresh : Nat → String) (eid : String) :
    ∀ (locs : List LocDetail) (st : EvState),
    (processLocs fresh eid locs st).eventsRows = st.eventsRows := by
  intro locs
  induction locs with
  | nil => intro st; rfl
  | cons l rest ih =>
    intro st
    show (processLocs fresh eid rest (processLoc fresh eid st l)).eventsRows = _
    rw [ih, processLoc_eventsRows]

theorem processLocs_eventMap (fresh : Nat → String) (eid : String) :
    ∀ (locs : List LocDetail) (st : EvState),
    (processLocs fresh eid locs st).eventMap = st.eventMap := by
  intro locs
  induction locs with
  | nil => intro st; rfl
  | cons l rest ih =>
    intro st
    show (processLocs fresh eid rest (processLoc fresh eid st l)).eventMap = _
    rw [ih, processLoc_eventMap]

theorem processLocs_c_mono (fresh : Nat → String) (eid : String) :
    ∀ (locs : List LocDetail) (st : EvState), st.c ≤ (processLocs fresh eid locs st).c := by
  intro locs
  induction locs with
  | nil => intro st; exact le_refl _
  | cons l rest ih =>
    intro st
    have h1 := processLoc_c_mono fresh eid st l
    have h2 := ih (processLoc fresh eid st l)
    show st.c ≤ (processLocs fresh eid rest (processLoc fresh eid st l)).c
    omega

theorem processLocs_inv (fresh : Nat → String) (eid : String) :
    ∀ (locs : List LocDetail) (st : EvState), EventLocInv st →
    eid ∈ st.eventsRows.map (fun r => r.event_id) →
    EventLocInv (processLocs fresh eid locs st) := by
  intro locs
  induction locs with
  | nil => intro st h _; exact h
  | cons l rest ih =>
    intro st h he
    have h2 := processLoc_inv fresh eid st l h he
    have he2 : eid ∈ (processLoc fresh eid st l).eventsRows.map (fun r => r.event_id) := by
      rw [processLoc_eventsRows]
      exact he
    exact ih (processLoc fresh eid st l) h2 he2

theorem processEvent_inv (iso : String → Option Int) (fresh : Nat → String)
    (st : EvState) (ev : EventInput) (h : EventLocInv st) :
    EventLocInv (processEvent iso fresh st ev) := by
  obtain ⟨hel, hmap⟩ := h
  unfold processEvent
  cases hd : ev.date with
  | none => exact ⟨hel, hmap⟩
  | some d =>
    by_cases hde : d = ""
    · simp only [if_pos hde]
      exact ⟨hel, hmap⟩
    · simp only [if_neg hde]
      cases hiso : iso d with
      | none => exact ⟨hel, hmap⟩
      | some ts =>
        have hinv2 : EventLocInv
            ⟨st.c + 1, (ev.ename, fresh st.c) :: st.eventMap, st.locationsMap,
              st.eventsRows ++ [⟨fresh st.c, ev.ename, ev.description, ts⟩],
              st.locationsRows, st.eventLocationsRows⟩ := by
          constructor
          · intro el hel2
            obtain ⟨h1a, h1b⟩ := hel el hel2
            refine ⟨?_, h1b⟩
            simp only [List.map_append, List.mem_append]
            exact Or.inl h1a
          · intro kv hkv
            exact hmap kv hkv
        have he : fresh st.c ∈
            (List.map (fun r => r.event_id)
              (st.eventsRows ++ [⟨fresh st.c, ev.ename, ev.description, ts⟩])) := by
          simp
        cases hlocs : ev.locations with
        | none => exact hinv2
        | some locs => exact processLocs_inv fresh (fresh st.c) locs _ hinv2 he

theorem insertEventsGo_inv (iso : String → Option Int) (fresh : Nat → String) :
    ∀ (evs : List EventInput) (st : EvState), EventLocInv st →
    EventLocInv (insertEventsGo iso fresh evs st) := by
  intro evs
  induction evs with
  | nil => intro st h; exact h
  | cons ev rest ih =>
    intro st h
    exact ih (processEvent iso fresh st ev) (processEvent_inv iso fresh st ev h)

/-- C5: every EventLocation row produced by the Seed Loader references an
event id that is the key of a prepared Event row and a location id that is
the key of a prepared Location row, within the same prepared insert batch. -/
theorem c5_event_location_referential_integrity (iso : String → Option Int)
    (fresh : Nat → String) (c0 : Nat) (evs : List EventInput) :
    ∀ el ∈ (insertEvents iso fresh c0 evs).eventLocationsRows,
      el.event_id ∈ (insertEvents iso fresh c0 evs).eventsRows.map (fun r => r.event_id) ∧
      el.location_id ∈
        (insertEvents iso fresh c0 evs).locationsRows.map (fun r => r.location_id) :=
  (insertEventsGo_inv iso fresh evs ⟨c0, [], [], [], [], []⟩
    ⟨by simp, by simp⟩).1

/-- C5 witness: one event with one location, plus a second event re-using the
same location key, applied at the first prepared EventLocation row. -/
theorem c5_event_location_referential_integrity_witness :
    (⟨"", "a"⟩ : EventLocationRow).event_id ∈ (insertEvents (fun _ => some 0) stringOfNat 0
        [⟨"E1", some "2025-01-01", none, some [⟨"L", none, 1, 2, none⟩]⟩,
         ⟨"E2", some "2025-01-02", none, some [⟨"L", none, 1, 2, none⟩]⟩]).eventsRows.map
          (fun r => r.event_id) ∧
    (⟨"", "a"⟩ : EventLocationRow).location_id ∈ (insertEvents (fun _ => some 0) stringOfNat 0
        [⟨"E1", some "2025-01-01", none, some [⟨"L", none, 1, 2, none⟩]⟩,
         ⟨"E2", some "2025-01-02", none, some [⟨"L", none, 1, 2, none⟩]⟩]).locationsRows.map
          (fun r => r.location_id) :=
  c5_event_location_referential_integrity (fun _ => some 0) stringOfNat 0
    [⟨"E1", some "2025-01-01", none, some [⟨"L", none, 1, 2, none⟩]⟩,
     ⟨"E2", some "2025-01-02", none, some [⟨"L", none, 1, 2, none⟩]⟩]
    ⟨"", "a"⟩ (by decide)

theorem processEvent_c (iso : String → Option Int) (fresh : Nat → String)
    (st : EvState) (ev : EventInput) : st.c + 1 ≤ (processEvent iso fresh st ev).c := by
  unfold processEvent
  cases hd : ev.date with
  | none => exact le_refl _
  | some d =>
    by_cases hde : d = ""
    · simp only [if_pos hde]
      exact le_refl _
    · simp only [if_neg hde]
      cases hiso : iso d with
      | none => exact le_refl _
      | some ts =>
        cases hlocs : ev.locations with
        | none => exact le_refl _
        | some locs =>
          have h := processLocs_c_mono fresh (fresh st.c) locs
            ⟨st.c + 1, (ev.ename, fresh st.c) :: st.eventMap, st.locationsMap,
              st.eventsRows ++ [⟨fresh st.c, ev.ename, ev.description, ts⟩],
              st.locationsRows, st.eventLocationsRows⟩
          exact h

theorem insertEventsGo_c_mono (iso : String → Option Int) (fresh : Nat → String) :
    ∀ (evs : List EventInput) (st : EvState), st.c ≤ (insertEventsGo iso fresh evs st).c := by
  intro evs
  induction evs with
  | nil => intro st; exact le_refl _
  | cons ev rest ih =>
    intro st
    have h1 := processEvent_c iso fresh st ev
    have h2 := ih (processEvent iso fresh st ev)
    show st.c ≤ (insertEventsGo iso fresh rest (processEvent iso fresh st ev)).c
    omega

theorem processEvent_events (iso : String → Option Int) (fresh : Nat → String)
    (st : EvState) (ev : EventInput) :
    ∃ add, (processEvent iso fresh st ev).eventsRows = st.eventsRows ++ add ∧
      ∀ r ∈ add, r.event_id = fresh st.c := by
  unfold processEvent
  cases hd : ev.date with
  | none => exact ⟨[], by simp, by simp⟩
  | some d =>
    by_cases hde : d = ""
    · simp only [if_pos hde]
      exact ⟨[], by simp, by simp⟩
    · simp only [if_neg hde]
      cases hiso : iso d with
      | none => exact ⟨[], by simp, by simp⟩
      | some ts =>
        cases hlocs : ev.locations with
        | none => exact ⟨[⟨fresh st.c, ev.ename, ev.description, ts⟩], rfl, by simp⟩
        | some locs =>
          refine ⟨[⟨fresh st.c, ev.ename, ev.description, ts⟩], ?_, by simp⟩
          rw [processLocs_eventsRows]

theorem processEvent_map (iso : String → Option Int) (fresh : Nat → String)
    (st : EvState) (ev : EventInput) :
    (processEvent iso fresh st ev).eventMap = (ev.ename, fresh st.c) :: st.eventMap := by
  unfold processEvent
  cases hd : ev.date with
  | none => rfl
  | some d =>
    by_cases hde : d = ""
    · simp only [if_pos hde]
    · simp only [if_neg hde]
      cases hiso : iso d with
      | none => rfl
      | some ts =>
        cases hlocs : ev.locations with
        | none => rfl
        | some locs => rw [processLocs_eventMap]

theorem insertEventsGo_events (iso : String → Option Int) (fresh : Nat → String) :
    ∀ (evs : List EventInput) (st : EvState),
    ∃ suff, (insertEventsGo iso fresh evs st).eventsRows = st.eventsRows ++ suff ∧
      ∀ r ∈ suff, ∃ j, st.c ≤ j ∧ j < (insertEventsGo iso fresh evs st).c ∧
        r.event_id = fresh j := by
  intro evs
  induction evs with
  | nil => intro st; exact ⟨[], by simp [insertEventsGo], by simp⟩
  | cons ev rest ih =>
    intro st
    have hstep : insertEventsGo iso fresh (ev :: rest) st
        = insertEventsGo iso fresh rest (processEvent iso fresh st ev) := rfl
    rw [hstep]
    obtain ⟨add, ha, hid⟩ := processEvent_events iso fresh st ev
    obtain ⟨suff, hs, hids⟩ := ih (processEvent iso fresh st ev)
    have hc1 := processEvent_c iso fresh st ev
    have hc2 := insertEventsGo_c_mono iso fresh rest (processEvent iso fresh st ev)
    refine ⟨add ++ suff, ?_, ?_⟩
    · rw [hs, ha, List.append_assoc]
    · intro r hr
      rcases List.mem_append.mp hr with h1 | h1
      · exact ⟨st.c, le_refl _, by omega, hid r h1⟩
      · obtain ⟨j, hj1, hj2, hj3⟩ := hids r h1
        exact ⟨j, by omega, hj2, hj3⟩

theorem insertEventsGo_map (iso : String → Option Int) (fresh : Nat → String) :
    ∀ (evs : List EventInput) (st : EvState),
    ∃ ne, (insertEventsGo iso fresh evs st).eventMap = ne ++ st.eventMap ∧
      ne.map (fun kv => kv.1) = (evs.map (fun ev => ev.ename)).reverse := by
  intro evs
  induction evs with
  | nil => intro st; exact ⟨[], by simp [insertEventsGo], by simp⟩
  | cons ev rest ih =>
    intro st
    have hstep : insertEventsGo iso fresh (ev :: rest) st
        = insertEventsGo iso fresh rest (processEvent iso fresh st ev) := rfl
    rw [hstep]
    obtain ⟨ne, hm, hn⟩ := ih (processEvent iso fresh st ev)
    refine ⟨ne ++ [(ev.ename, fresh st.c)], ?_, ?_⟩
    · rw [hm, processEvent_map, List.append_assoc]
      simp
    · rw [List.map_append, hn]
      simp

theorem alookup_append_not_mem {β : Type} (l1 l2 : List (String × β)) (a : String)
    (h : a ∉ l1.map (fun kv => kv.1)) : alookup (l1 ++ l2) a = alookup l2 a := by
  induction l1 with
  | nil => rfl
  | cons kv rest ih =>
    obtain ⟨k, v⟩ := kv
    simp only [List.map_cons, List.mem_cons] at h
    push_neg at h
    show alookup ((k, v) :: (rest ++ l2)) a = _
    have hk : ¬(k = a) := fun hh => h.1 hh.symm
    simp only [alookup, if_neg hk]
    exact ih h.2

theorem insertEventsGo_append (iso : String → Option Int) (fresh : Nat → String)
    (l1 l2 : List EventInput) (st : EvState) :
    insertEventsGo iso fresh (l1 ++ l2) st
      = insertEventsGo iso fresh l2 (insertEventsGo iso fresh l1 st) := by
  induction l1 generalizing st with
  | nil => rfl
  | cons ev rest ih => simpa [insertEventsGo] using ih (processEvent iso fresh st ev)

theorem processEvent_invalid (iso : String → Option Int) (fresh : Nat → String)
    (st : EvState) (ev : EventInput) (h : invalidDate iso ev) :
    processEvent iso fresh st ev
      = ⟨st.c + 1, (ev.ename, fresh st.c) :: st.eventMap, st.locationsMap,
          st.eventsRows, st.locationsRows, st.eventLocationsRows⟩ := by
  unfold invalidDate at h
  unfold processEvent
  cases hd : ev.date with
  | none => rfl
  | some d =>
    rw [hd] at h
    simp only at h
    by_cases hde : d = ""
    · simp only [if_pos hde]
    · rcases h with h1 | h1
      · exact absurd h1 hde
      · simp only [if_neg hde, h1]

/-- C10: an event whose date is missing or unparseable is registered in the
event lookup map before date validation, so although it gets no Event row,
the attendance loop still resolves its name and emits an Attendance row
whose event id has no corresponding Event row in the same insert batch. -/
theorem c10_invalid_date_dangling_attendance (iso : String → Option Int)
    (fresh : Nat → String) (c0 : Nat) (l1 l2 : List EventInput) (e : EventInput)
    (hinj : Function.Injective fresh) (hbad : invalidDate iso e)
    (hname : e.ename ∉ l2.map (fun ev => ev.ename)) :
    ∃ eid,
      alookup (insertEvents iso fresh c0 (l1 ++ e :: l2)).eventMap e.ename = some eid ∧
      (∀ r ∈ (insertEvents iso fresh c0 (l1 ++ e :: l2)).eventsRows, r.event_id ≠ eid) ∧
      (∀ (pm : List (String × String)) (rows : List AttendanceRow) (p pid : String),
        alookup pm p = some pid →
        attendanceStep pm (insertEvents iso fresh c0 (l1 ++ e :: l2)).eventMap rows
            (p, e.ename)
          = rows ++ [⟨pid, eid⟩]) := by
  set st1 := insertEventsGo iso fresh l1 (⟨c0, [], [], [], [], []⟩ : EvState) with hst1
  have hsplit : insertEvents iso fresh c0 (l1 ++ e :: l2)
      = insertEventsGo iso fresh l2 (processEvent iso fresh st1 e) := by
    rw [hst1]
    unfold insertEvents
    rw [insertEventsGo_append]
    rfl
  have hpe : processEvent iso fresh st1 e
      = ⟨st1.c + 1, (e.ename, fresh st1.c) :: st1.eventMap, st1.locationsMap,
          st1.eventsRows, st1.locationsRows, st1.eventLocationsRows⟩ :=
    processEvent_invalid iso fresh st1 e hbad
  obtain ⟨suff1, hev1, hids1⟩ := insertEventsGo_events iso fresh l1 ⟨c0, [], [], [], [], []⟩
  rw [← hst1] at hev1 hids1
  have hinitE : ((⟨c0, [], [], [], [], []⟩ : EvState)).eventsRows = [] := rfl
  have hinitc : ((⟨c0, [], [], [], [], []⟩ : EvState)).c = c0 := rfl
  rw [hinitE, List.nil_append] at hev1
  obtain ⟨ne2, hm2, hn2⟩ := insertEventsGo_map iso fresh l2 (processEvent iso fresh st1 e)
  obtain ⟨suff2, hev2, hids2⟩ := insertEventsGo_events iso fresh l2 (processEvent iso fresh st1 e)
  have hlook : alookup (insertEvents iso fresh c0 (l1 ++ e :: l2)).eventMap e.ename
      = some (fresh st1.c) := by
    rw [hsplit, hm2]
    have hnm : e.ename ∉ ne2.map (fun kv => kv.1) := by
      rw [hn2]
      simp only [List.mem_reverse, List.mem_map]
      rintro ⟨ev, hev, heq⟩
      exact hname (List.mem_map.mpr ⟨ev, hev, heq⟩)
    rw [alookup_append_not_mem _ _ _ hnm, hpe]
    simp [alookup]
  refine ⟨fresh st1.c, hlook, ?_, ?_⟩
  · intro r hr
    rw [hsplit, hev2, hpe] at hr
    simp only [List.mem_append] at hr
    rcases hr with h1 | h1
    · rw [hev1] at h1
      obtain ⟨j, hj1, hj2, hj3⟩ := hids1 r h1
      rw [hj3]
      intro hcon
      have := hinj hcon
      omega
    · obtain ⟨j, hj1, hj2, hj3⟩ := hids2 r h1
      rw [hpe] at hj1
      simp only at hj1
      rw [hj3]
      intro hcon
      have := hinj hcon
      omega
  · intro pm rows p pid hp
    simp [attendanceStep, hp, hlook]

/-- C10 witness: an event with a missing date followed by a normal event;
the person map resolves the attendee. -/
theorem c10_invalid_date_dangling_attendance_witness :
    ∃ eid,
      alookup (insertEvents (fun _ => none) stringOfNat 0
          ([] ++ (⟨"E1", none, none, none⟩ : EventInput) ::
            [⟨"E2", some "d", none, none⟩])).eventMap "E1" = some eid ∧
      (∀ r ∈ (insertEvents (fun _ => none) stringOfNat 0
          ([] ++ (⟨"E1", none, none, none⟩ : EventInput) ::
            [⟨"E2", some "d", none, none⟩])).eventsRows, r.event_id ≠ eid) ∧
      (∀ (pm : List (String × String)) (rows : List AttendanceRow) (p pid : String),
        alookup pm p = some pid →
        attendanceStep pm (insertEvents (fun _ => none) stringOfNat 0
            ([] ++ (⟨"E1", none, none, none⟩ : EventInput) ::
              [⟨"E2", some "d", none, none⟩])).eventMap rows (p, "E1")
          = rows ++ [⟨pid, eid⟩]) :=
  c10_invalid_date_dangling_attendance (fun _ => none) stringOfNat 0 []
    [⟨"E2", some "d", none, none⟩] ⟨"E1", none, none, none⟩
    stringOfNat_injective trivial (by decide)

theorem lockup_none_forall {m : List ((String × Int × Int) × String)}
    {k : String × Int × Int} (h : lockup m k = none) : ∀ kv ∈ m, kv.1 ≠ k := by
  induction m with
  | nil => intro kv hkv; exact absurd hkv (List.not_mem_nil kv)
  | cons kv2 rest ih =>
    obtain ⟨k2, v2⟩ := kv2
    by_cases hk : k2 = k
    · simp only [lockup, if_pos hk] at h
      exact absurd h (by simp)
    · simp only [lockup, if_neg hk] at h
      intro kv hkv
      rcases List.mem_cons.mp hkv with h1 | h1
      · rw [h1]
        exact hk
      · exact ih h kv h1

theorem map_val_inj {m : List ((String × Int × Int) × String)}
    (h : (m.map (fun kv => kv.2)).Nodup) {a b : String × Int × Int} {v : String}
    (ha : (a, v) ∈ m) (hb : (b, v) ∈ m) : a = b := by
  induction m with
  | nil => exact absurd ha (List.not_mem_nil _)
  | cons kv rest ih =>
    simp only [List.map_cons, List.nodup_cons] at h
    rcases List.mem_cons.mp ha with h1 | h1 <;> rcases List.mem_cons.mp hb with h2 | h2
    · rw [← h2] at h1
      exact congrArg Prod.fst h1
    · exfalso
      apply h.1
      rw [← h1]
      exact List.mem_map.mpr ⟨(b, v), h2, rfl⟩
    · exfalso
      apply h.1
      rw [← h2]
      exact List.mem_map.mpr ⟨(a, v), h1, rfl⟩
    · exact ih h.2 h1 h2

theorem countSpec_of_eq (k : String × Int × Int) (st st2 : EvState)
    (h1 : st2.locationsRows = st.locationsRows)
    (h2 : st2.locationsMap = st.locationsMap)
    (h3 : st2.eventLocationsRows = st.eventLocationsRows) :
    CountSpec k st st2 0 := by
  refine ⟨?_, ?_, ?_, ?_, ?_⟩
  · rw [h1]
    cases hs : lockup st.locationsMap k <;> simp [hs]
  · intro l hl
    rw [h3, Nat.add_zero]
  · intro l hl1 hl2
    rw [h2] at hl2
    rw [hl1] at hl2
    exact absurd hl2 (by simp)
  · rw [h2]
    simp
  · intro k2 l hl
    rw [h2]
    exact hl

theorem countSpec_trans (k : String × Int × Int) (st1 st2 st3 : EvState) (n m : Nat)
    (h12 : CountSpec k st1 st2 n) (h23 : CountSpec k st2 st3 m) :
    CountSpec k st1 st3 (n + m) := by
  obtain ⟨a12, b12, c12, d12, e12⟩ := h12
  obtain ⟨a23, b23, c23, d23, e23⟩ := h23
  refine ⟨?_, ?_, ?_, ?_, ?_⟩
  · rw [a23, a12]
    cases hs1 : lockup st1.locationsMap k with
    | some l =>
      have hs2 := e12 k l hs1
      rw [hs2]
      simp
    | none =>
      by_cases hn : n = 0
      · have hs2 : lockup st2.locationsMap k = none := d12.mpr ⟨hs1, hn⟩
        subst hn
        simp [hs2]
      · have hs2 : ¬lockup st2.locationsMap k = none := fun hcon => hn (d12.mp hcon).2
        cases hs2v : lockup st2.locationsMap k with
        | none => exact absurd hs2v hs2
        | some l2 =>
          have h1 : min 1 n = 1 := by omega
          have h2 : min 1 (n + m) = 1 := by omega
          simp [hs2v, h1, h2]
  · intro l hl
    have hl2 := e12 k l hl
    rw [b23 l hl2, b12 l hl]
    omega
  · intro l hl1 hl3
    cases hs2 : lockup st2.locationsMap k with
    | some l2 =>
      have hs3 : lockup st3.locationsMap k = some l2 := e23 k l2 hs2
      have hll : l2 = l := Option.some.inj (hs3.symm.trans hl3)
      subst hll
      have hcnt2 := c12 l2 hl1 hs2
      have hcnt3 := b23 l2 hs2
      rw [hcnt3, hcnt2]
    | none =>
      have hn : n = 0 := (d12.mp hs2).2
      have hcnt3 := c23 l hs2 hl3
      rw [hcnt3]
      omega
  · constructor
    · intro h
      have h2 := d23.mp h
      have h1 := d12.mp h2.1
      refine ⟨h1.1, ?_⟩
      have := h1.2
      have := h2.2
      omega
    · rintro ⟨hnone, hnm⟩
      refine d23.mpr ⟨d12.mpr ⟨hnone, by omega⟩, by omega⟩
  · intro k2 l h
    exact e23 k2 l (e12 k2 l h)

theorem locWF_of_eq (fresh : Nat → String) (st st2 : EvState) (h : LocWF fresh st)
    (h1 : st2.locationsRows = st.locationsRows)
    (h2 : st2.locationsMap = st.locationsMap)
    (h3 : st2.eventLocationsRows = st.eventLocationsRows)
    (hc : st.c ≤ st2.c) : LocWF fresh st2 := by
  obtain ⟨w1, w2, w3, w4, w5, w6, w7⟩ := h
  refine ⟨?_, ?_, ?_, ?_, ?_, ?_, ?_⟩
  · rw [h2]; exact w1
  · rw [h2]
    intro kv hkv
    obtain ⟨j, hj1, hj2⟩ := w2 kv hkv
    exact ⟨j, by omega, hj2⟩
  · rw [h2]; exact w3
  · rw [h1, h2]; exact w4
  · rw [h1, h2]; exact w5
  · rw [h1]; exact w6
  · rw [h2, h3]; exact w7

theorem processLoc_hit (fresh : Nat → String) (eid : String) (st : EvState)
    (loc : LocDetail) (lid : String)
    (h : lockup st.locationsMap (locKey loc) = some lid) :
    processLoc fresh eid st loc
      = ⟨st.c, st.eventMap, st.locationsMap, st.eventsRows, st.locationsRows,
          st.eventLocationsRows ++ [⟨eid, lid⟩]⟩ := by
  unfold processLoc
  rw [h]

theorem processLoc_miss (fresh : Nat → String) (eid : String) (st : EvState)
    (loc : LocDetail) (h : lockup st.locationsMap (locKey loc) = none) :
    processLoc fresh eid st loc
      = ⟨st.c + 1, st.eventMap, (locKey loc, fresh st.c) :: st.locationsMap,
          st.eventsRows,
          st.locationsRows ++
            [⟨fresh st.c, loc.lname, loc.description, loc.latitude, loc.longitude,
              loc.address⟩],
          st.eventLocationsRows ++ [⟨eid, fresh st.c⟩]⟩ := by
  unfold processLoc
  rw [h]

theorem processLoc_count (fresh : Nat → String) (hinj : Function.Injective fresh)
    (k : String × Int × Int) (eid : String) (st : EvState) (loc : LocDetail)
    (hwf : LocWF fresh st) :
    LocWF fresh (processLoc fresh eid st loc) ∧
    st.c ≤ (processLoc fresh eid st loc).c ∧
    CountSpec k st (processLoc fresh eid st loc)
      (if locKey loc = k then 1 else 0) := by
  obtain ⟨w1, w2, w3, w4, w5, w6, w7⟩ := hwf
  cases hl : lockup st.locationsMap (locKey loc) with
  | some lid =>
    rw [processLoc_hit fresh eid st loc lid hl]
    unfold LocWF CountSpec
    dsimp only
    refine ⟨⟨w1, w2, w3, w4, w5, w6, ?_⟩, le_refl _, ?_, ?_, ?_, ?_, ?_⟩
    · intro el hel
      rcases List.mem_append.mp hel with h1 | h1
      · exact w7 el h1
      · simp only [List.mem_singleton] at h1
        subst h1
        exact ⟨(locKey loc, lid), lockup_mem hl, rfl⟩
    · by_cases hk1 : locKey loc = k
      · rw [hk1] at hl
        simp [hl]
      · cases hs : lockup st.locationsMap k <;> simp [hs, hk1]
    · intro l hlk
      rw [List.countP_append]
      by_cases hk1 : locKey loc = k
      · have hle : lid = l := by
          rw [hk1] at hl
          exact Option.some.inj (hl.symm.trans hlk)
        simp [hle, hk1, List.countP_cons]
      · have hne : lid ≠ l := by
          intro hcon
          subst hcon
          exact hk1 (map_val_inj w3 (lockup_mem hl) (lockup_mem hlk))
        simp [hne, hk1, List.countP_cons]
    · intro l h1 h2
      rw [h1] at h2
      exact absurd h2 (by simp)
    · by_cases hk1 : locKey loc = k
      · rw [hk1] at hl
        simp [hl, hk1]
      · simp [hk1]
    · intro k2 l h
      exact h
  | none =>
    rw [processLoc_miss fresh eid st loc hl]
    unfold LocWF CountSpec
    dsimp only
    have hfreshne : ∀ kv ∈ st.locationsMap, kv.2 ≠ fresh st.c := by
      intro kv hkv hcon
      obtain ⟨j, hj1, hj2⟩ := w2 kv hkv
      rw [hj2] at hcon
      have := hinj hcon
      omega
    have helne : ∀ el ∈ st.eventLocationsRows, el.location_id ≠ fresh st.c := by
      intro el hel hcon
      obtain ⟨kv, hkv, heq⟩ := w7 el hel
      exact hfreshne kv hkv (heq ▸ hcon)
    refine ⟨⟨?_, ?_, ?_, ?_, ?_, ?_, ?_⟩, Nat.le_succ _, ?_, ?_, ?_, ?_, ?_⟩
    · simp only [List.map_cons, List.nodup_cons]
      refine ⟨?_, w1⟩
      intro hcon
      obtain ⟨kv, hkv, heq⟩ := List.mem_map.mp hcon
      exact lockup_none_forall hl kv hkv heq
    · intro kv hkv
      rcases List.mem_cons.mp hkv with h1 | h1
      · subst h1
        exact ⟨st.c, Nat.lt_succ_self _, rfl⟩
      · obtain ⟨j, hj1, hj2⟩ := w2 kv h1
        exact ⟨j, by omega, hj2⟩
    · simp only [List.map_cons, List.nodup_cons]
      refine ⟨?_, w3⟩
      intro hcon
      obtain ⟨kv, hkv, heq⟩ := List.mem_map.mp hcon
      exact hfreshne kv hkv heq
    · intro r hr
      rcases List.mem_append.mp hr with h1 | h1
      · have hv := w4 r h1
        have hne : ¬(locKey loc = r.key) := by
          intro hcon
          rw [hcon, hv] at hl
          exact Option.noConfusion hl
        simp only [lockup, if_neg hne]
        exact hv
      · simp only [List.mem_singleton] at h1
        subst h1
        simp [lockup, LocationRow.key, locKey]
    · intro kv hkv
      rcases List.mem_cons.mp hkv with h1 | h1
      · subst h1
        refine ⟨⟨fresh st.c, loc.lname, loc.description, loc.latitude, loc.longitude,
          loc.address⟩, ?_, ?_, rfl⟩
        · simp
        · simp [LocationRow.key, locKey]
      · obtain ⟨r, hr, hkey, hid⟩ := w5 kv h1
        exact ⟨r, List.mem_append_left _ hr, hkey, hid⟩
    · rw [List.map_append, List.nodup_append]
      refine ⟨w6, by simp, ?_⟩
      intro x hx hx2
      simp only [List.map_cons, List.map_nil, List.mem_singleton] at hx2
      obtain ⟨r, hr, hkeq⟩ := List.mem_map.mp hx
      have hv := w4 r hr
      rw [hkeq] at hv
      rw [hx2] at hv
      have : LocationRow.key ⟨fresh st.c, loc.lname, loc.description, loc.latitude,
          loc.longitude, loc.address⟩ = locKey loc := rfl
      rw [this, hl] at hv
      exact Option.noConfusion hv
    · intro el hel
      rcases List.mem_append.mp hel with h1 | h1
      · obtain ⟨kv, hkv, heq⟩ := w7 el h1
        exact ⟨kv, List.mem_cons_of_mem _ hkv, heq⟩
      · simp only [List.mem_singleton] at h1
        subst h1
        exact ⟨(locKey loc, fresh st.c), List.mem_cons_self _ _, rfl⟩
    · rw [List.countP_append]
      by_cases hk1 : locKey loc = k
      · rw [hk1] at hl
        have hkey : LocationRow.key ⟨fresh st.c, loc.lname, loc.description, loc.latitude,
            loc.longitude, loc.address⟩ = k := by
          rw [← hk1]
          rfl
        simp [hl, hk1, hkey, List.countP_cons]
      · have hkey : LocationRow.key ⟨fresh st.c, loc.lname, loc.description, loc.latitude,
            loc.longitude, loc.address⟩ ≠ k := by
          intro hcon
          exact hk1 hcon
        cases hs : lockup st.locationsMap k <;>
          simp [hs, hk1, hkey, List.countP_cons]
    · intro l hlk
      have hk1 : ¬(locKey loc = k) := by
        intro hcon
        rw [hcon, hlk] at hl
        exact Option.noConfusion hl
      have hne : fresh st.c ≠ l := by
        intro hcon
        obtain ⟨j, hj1, hj2⟩ := w2 (k, l) (lockup_mem hlk)
        dsimp only at hj2
        rw [hj2] at hcon
        have := hinj hcon
        omega
      rw [List.countP_append]
      simp [hne, hk1, List.countP_cons]
    · intro l h1 h2
      by_cases hk1 : locKey loc = k
      · simp only [lockup, if_pos hk1] at h2
        have hlid : fresh st.c = l := Option.some.inj h2
        have hzero : st.eventLocationsRows.countP
            (fun el => decide (el.location_id = l)) = 0 := by
          rw [List.countP_eq_zero]
          intro el hel
          simp only [decide_eq_true_eq]
          rw [← hlid]
          exact helne el hel
        rw [List.countP_append, hzero]
        simp [hlid, hk1, List.countP_cons]
      · simp only [lockup, if_neg hk1] at h2
        rw [h1] at h2
        exact absurd h2 (by simp)
    · by_cases hk1 : locKey loc = k
      · rw [hk1] at hl
        simp [lockup, hk1, hl]
      · simp [lockup, hk1]
    · intro k2 l h
      have hne : ¬(locKey loc = k2) := by
        intro hcon
        rw [hcon, h] at hl
        exact Option.noConfusion hl
      simp only [lockup, if_neg hne]
      exact h

theorem processLocs_count (fresh : Nat → String) (hinj : Function.Injective fresh)
    (k : String × Int × Int) (eid : String) :
    ∀ (locs : List LocDetail) (st : EvState), LocWF fresh st →
    LocWF fresh (processLocs fresh eid locs st) ∧
    CountSpec k st (processLocs fresh eid locs st)
      (locs.countP (fun l => decide (locKey l = k))) := by
  intro locs
  induction locs with
  | nil =>
    intro st hwf
    refine ⟨hwf, ?_⟩
    simpa using countSpec_of_eq k st st rfl rfl rfl
  | cons l rest ih =>
    intro st hwf
    obtain ⟨hwf2, hmono, hcs⟩ := processLoc_count fresh hinj k eid st l hwf
    obtain ⟨hwf3, hcs2⟩ := ih (processLoc fresh eid st l) hwf2
    have hstep : processLocs fresh eid (l :: rest) st
        = processLocs fresh eid rest (processLoc fresh eid st l) := rfl
    rw [hstep]
    refine ⟨hwf3, ?_⟩
    have htr := countSpec_trans k st (processLoc fresh eid st l)
      (processLocs fresh eid rest (processLoc fresh eid st l)) _ _ hcs hcs2
    have heq : ((if locKey l = k then 1 else 0)
          + rest.countP (fun l2 => decide (locKey l2 = k)))
        = (l :: rest).countP (fun l2 => decide (locKey l2 = k)) := by
      rw [List.countP_cons]
      by_cases hk : locKey l = k
      · simp [hk, Nat.add_comm]
      · simp [hk]
    rw [← heq]
    exact htr

theorem processEvent_count (iso : String → Option Int) (fresh : Nat → String)
    (hinj : Function.Injective fresh) (k : String × Int × Int)
    (st : EvState) (ev : EventInput) (hwf : LocWF fresh st) :
    LocWF fresh (processEvent iso fresh st ev) ∧
    CountSpec k st (processEvent iso fresh st ev)
      ((validLocs iso ev).countP (fun l => decide (locKey l = k))) := by
  unfold processEvent validLocs
  cases hd : ev.date with
  | none =>
    refine ⟨locWF_of_eq fresh st _ hwf rfl rfl rfl (Nat.le_succ _), ?_⟩
    simpa using countSpec_of_eq k st _ rfl rfl rfl
  | some d =>
    by_cases hde : d = ""
    · simp only [if_pos hde]
      refine ⟨locWF_of_eq fresh st _ hwf rfl rfl rfl (Nat.le_succ _), ?_⟩
      simpa using countSpec_of_eq k st _ rfl rfl rfl
    · simp only [if_neg hde]
      cases hiso : iso d with
      | none =>
        refine ⟨locWF_of_eq fresh st _ hwf rfl rfl rfl (Nat.le_succ _), ?_⟩
        simpa using countSpec_of_eq k st _ rfl rfl rfl
      | some ts =>
        cases hlocs : ev.locations with
        | none =>
          refine ⟨locWF_of_eq fresh st _ hwf rfl rfl rfl (Nat.le_succ _), ?_⟩
          simpa using countSpec_of_eq k st _ rfl rfl rfl
        | some locs =>
          have hwf3 : LocWF fresh
              ⟨st.c + 1, (ev.ename, fresh st.c) :: st.eventMap, st.locationsMap,
                st.eventsRows ++ [⟨fresh st.c, ev.ename, ev.description, ts⟩],
                st.locationsRows, st.eventLocationsRows⟩ :=
            locWF_of_eq fresh st _ hwf rfl rfl rfl (Nat.le_succ _)
          obtain ⟨hwfF, hcsF⟩ := processLocs_count fresh hinj k (fresh st.c) locs
            ⟨st.c + 1, (ev.ename, fresh st.c) :: st.eventMap, st.locationsMap,
              st.eventsRows ++ [⟨fresh st.c, ev.ename, ev.description, ts⟩],
              st.locationsRows, st.eventLocationsRows⟩ hwf3
          refine ⟨hwfF, ?_⟩
          have h0 : CountSpec k st
              ⟨st.c + 1, (ev.ename, fresh st.c) :: st.eventMap, st.locationsMap,
                st.eventsRows ++ [⟨fresh st.c, ev.ename, ev.description, ts⟩],
                st.locationsRows, st.eventLocationsRows⟩ 0 :=
            countSpec_of_eq k st _ rfl rfl rfl
          have htr := countSpec_trans k st _ _ _ _ h0 hcsF
          simpa using htr

theorem insertEventsGo_count (iso : String → Option Int) (fresh : Nat → String)
    (hinj : Function.Injective fresh) (k : String × Int × Int) :
    ∀ (evs : List EventInput) (st : EvState), LocWF fresh st →
    LocWF fresh (insertEventsGo iso fresh evs st) ∧
    CountSpec k st (insertEventsGo iso fresh evs st) (locRefCount iso k evs) := by
  intro evs
  induction evs with
  | nil =>
    intro st hwf
    refine ⟨hwf, ?_⟩
    simpa [locRefCount] using countSpec_of_eq k st st rfl rfl rfl
  | cons ev rest ih =>
    intro st hwf
    obtain ⟨hwf2, hcs⟩ := processEvent_count iso fresh hinj k st ev hwf
    obtain ⟨hwf3, hcs2⟩ := ih (processEvent iso fresh st ev) hwf2
    have hstep : insertEventsGo iso fresh (ev :: rest) st
        = insertEventsGo iso fresh rest (processEvent iso fresh st ev) := rfl
    rw [hstep]
    refine ⟨hwf3, ?_⟩
    have htr := countSpec_trans k st (processEvent iso fresh st ev)
      (insertEventsGo iso fresh rest (processEvent iso fresh st ev)) _ _ hcs hcs2
    have heq : locRefCount iso k (ev :: rest)
        = (validLocs iso ev).countP (fun l => decide (locKey l = k))
          + locRefCount iso k rest := rfl
    rw [heq]
    exact htr

/-- C8: for any location key (name, latitude, longitude), the Seed Loader
prepares exactly one Location row with that key when at least one
date-valid event references it (none otherwise), and prepares exactly one
EventLocation row per reference, all pointing at that single row's location
id — so two events sharing an identical key are stored as one Location row
with two EventLocation rows pointing to it. -/
theorem c8_shared_location_dedup (iso : String → Option Int) (fresh : Nat → String)
    (c0 : Nat) (evs : List EventInput) (hinj : Function.Injective fresh)
    (k : String × Int × Int) :
    ((insertEvents iso fresh c0 evs).locationsRows.countP (fun r => decide (r.key = k)))
        = min 1 (locRefCount iso k evs) ∧
    (∀ r ∈ (insertEvents iso fresh c0 evs).locationsRows, r.key = k →
      ((insertEvents iso fresh c0 evs).eventLocationsRows.countP
          (fun el => decide (el.location_id = r.location_id)))
        = locRefCount iso k evs) := by
  have hwf0 : LocWF fresh (⟨c0, [], [], [], [], []⟩ : EvState) := by
    refine ⟨?_, ?_, ?_, ?_, ?_, ?_, ?_⟩ <;> simp
  obtain ⟨hwfF, hcs⟩ := insertEventsGo_count iso fresh hinj k evs
    ⟨c0, [], [], [], [], []⟩ hwf0
  obtain ⟨ha, hb, hc, hd, he⟩ := hcs
  have hrfl : insertEvents iso fresh c0 evs
      = insertEventsGo iso fresh evs ⟨c0, [], [], [], [], []⟩ := rfl
  constructor
  · rw [hrfl]
    simpa [lockup] using ha
  · intro r hr hrk
    rw [hrfl] at hr ⊢
    obtain ⟨x1, x2, x3, x4, x5, x6, x7⟩ := hwfF
    have hlook := x4 r hr
    rw [hrk] at hlook
    exact hc r.location_id rfl hlook

/-- C8 witness: two events with identical (name, latitude, longitude) keys
and one distinct third key. -/
theorem c8_shared_location_dedup_witness :
    ((insertEvents (fun _ => some 0) stringOfNat 0
        [⟨"E1", some "2025-01-01", none, some [⟨"L", none, 1, 2, none⟩]⟩,
         ⟨"E2", some "2025-01-02", none, some [⟨"L", none, 1, 2, none⟩]⟩]).locationsRows.countP
        (fun r => decide (r.key = ("L", 1, 2))))
        = min 1 (locRefCount (fun _ => some 0) ("L", 1, 2)
            [⟨"E1", some "2025-01-01", none, some [⟨"L", none, 1, 2, none⟩]⟩,
             ⟨"E2", some "2025-01-02", none, some [⟨"L", none, 1, 2, none⟩]⟩]) ∧
    (∀ r ∈ (insertEvents (fun _ => some 0) stringOfNat 0
        [⟨"E1", some "2025-01-01", none, some [⟨"L", none, 1, 2, none⟩]⟩,
         ⟨"E2", some "2025-01-02", none, some [⟨"L", none, 1, 2, none⟩]⟩]).locationsRows,
      r.key = ("L", 1, 2) →
      ((insertEvents (fun _ => some 0) stringOfNat 0
          [⟨"E1", some "2025-01-01", none, some [⟨"L", none, 1, 2, none⟩]⟩,
           ⟨"E2", some "2025-01-02", none, some [⟨"L", none, 1, 2, none⟩]⟩]).eventLocationsRows.countP
          (fun el => decide (el.location_id = r.location_id)))
        = locRefCount (fun _ => some 0) ("L", 1, 2)
            [⟨"E1", some "2025-01-01", none, some [⟨"L", none, 1, 2, none⟩]⟩,
             ⟨"E2", some "2025-01-02", none, some [⟨"L", none, 1, 2, none⟩]⟩]) :=
  c8_shared_location_dedup (fun _ => some 0) stringOfNat 0
    [⟨"E1", some "2025-01-01", none, some [⟨"L", none, 1, 2, none⟩]⟩,
     ⟨"E2", some "2025-01-02", none, some [⟨"L", none, 1, 2, none⟩]⟩]
    stringOfNat_injective ("L", 1, 2)

end InstaVibe
